import Mathlib

/-!
Text-mode display driver of `demo/hello/hello.c`.

A shallow embedding of the video driver (`cls`, `putchar`, `puts`) of
`src/demo/hello/hello.c`, and theorems about it.

* C `int` values are `Int`; the pre-increment `++x` is undefined on `INT_MAX`
  and is modelled as failing there.
* The video memory `unsigned char [LINES][COLUMNS][2]` is an array of 4000 bytes
  (values in `Fin 256`) in row-major order.
* Every array access is bounds-checked; an access outside the array, a signed
  overflow, or reading a string past its buffer is undefined behaviour in C and
  yields `none`.
* `for` loops take a fuel argument; the theorems show that the fuel supplied by
  the callers is always enough (the result is `some _`).
-/

namespace Hello

/-! ## Constants and the data model (hello.c lines 10-25) -/

/-- Taken from `#define COLUMNS 80`. -/
def COLUMNS : Int := 80
/-- Taken from `#define LINES 25`. -/
def LINES : Int := 25
/-- Taken from `#define ATTRIBUTE 12`. -/
def ATTRIBUTE : Int := 12
/-- The largest value of a C `int` (32 bits). -/
def INT_MAX : Int := 2147483647

/-- An `unsigned char`. -/
abbrev Byte := Fin 256

/-- The type `screen`, `unsigned char [LINES][COLUMNS][2]`: the 4000 bytes of the
video memory in the row-major layout of C. -/
structure Screen where
  bytes : Array Byte
  size_eq : bytes.size = 4000

/-- The byte `v[a][b][c]` (`c = 0` the character, `c = 1` the attribute). -/
def Screen.get (v : Screen) (a : Fin 25) (b : Fin 80) (c : Fin 2) : Byte :=
  v.bytes.get ⟨(a.val * 80 + b.val) * 2 + c.val, by rw [v.size_eq]; omega⟩

/-- The screen `v` with the byte `v[a][b][c]` replaced by `x`. -/
def Screen.set (v : Screen) (a : Fin 25) (b : Fin 80) (c : Fin 2) (x : Byte) : Screen :=
  ⟨v.bytes.set ⟨(a.val * 80 + b.val) * 2 + c.val, by rw [v.size_eq]; omega⟩ x,
   by rw [Array.size_set]; exact v.size_eq⟩

/-- The driver state: the memory `*video` and the two cursor globals. -/
structure State where
  video : Screen
  xpos : Int
  ypos : Int

/-- Conversion of an `int` value to `unsigned char` (reduction modulo 256). -/
def toByte (x : Int) : Byte := ⟨(x % 256).toNat, by omega⟩

/-- The assignment `(*video)[i][j][k] = x`, where `x` is an `int` expression;
fails when `i` or `j` is outside the array. -/
def store (s : State) (i j : Int) (k : Fin 2) (x : Int) : Option State :=
  if h : 0 ≤ i ∧ i < LINES ∧ 0 ≤ j ∧ j < COLUMNS then
    some { s with
      video := s.video.set ⟨i.toNat, by unfold LINES at h; omega⟩
                           ⟨j.toNat, by unfold COLUMNS at h; omega⟩ k (toByte x) }
  else none

/-- The read `(*video)[i][j][k]`, promoted to `int`; fails when `i` or `j` is
outside the array. -/
def load (s : State) (i j : Int) (k : Fin 2) : Option Int :=
  if h : 0 ≤ i ∧ i < LINES ∧ 0 ≤ j ∧ j < COLUMNS then
    some ((s.video.get ⟨i.toNat, by unfold LINES at h; omega⟩
                       ⟨j.toNat, by unfold COLUMNS at h; omega⟩ k).val : Int)
  else none

/-- The value of `++x` for an `int` variable `x`; signed overflow fails. -/
def preinc (x : Int) : Option Int :=
  if x + 1 ≤ INT_MAX then some (x + 1) else none

/-- The loop `for (...; cond; ++i) body`, entered with counter value `i`.
Each test of the condition uses one unit of fuel; `none` also when the fuel
runs out.  (The counters of this program stay below 81, `++i` cannot overflow.) -/
def forLoop (fuel : Nat) (cond : Int → State → Bool) (body : Int → State → Option State)
    (i : Int) (s : State) : Option State :=
  match fuel with
  | 0 => none
  | n + 1 =>
    if cond i s then (body i s).bind (fun t => forLoop n cond body (i + 1) t)
    else some s

/-! ## The driver (hello.c lines 30-79) -/

/-- The body of the inner loop of `cls` (lines 34-35). -/
def clsCell (i j : Int) (s : State) : Option State :=
  (store s i j 0 32).bind fun s1 =>          -- (*video)[i][j][0] = ' ';
  store s1 i j 1 (ATTRIBUTE + j + i)          -- (*video)[i][j][1] = ATTRIBUTE+j+i;

/-- The function `void cls(void)` (lines 30-40). -/
def cls (s : State) : Option State :=
  (forLoop 26 (fun i _ => i < LINES) (fun i s1 =>
      forLoop 81 (fun j _ => j < COLUMNS) (fun j s2 => clsCell i j s2) 0 s1) 0 s).bind
    fun s3 => some { s3 with ypos := 0, xpos := 0 }

/-- The body of the copy loop of `putchar` (lines 61-62). -/
def copyCell (i j : Int) (s : State) : Option State :=
  (load s (i + 1) j 0).bind fun c0 =>
  (store s i j 0 c0).bind fun s1 =>           -- (*video)[i][j][0] = (*video)[i+1][j][0];
  (load s1 (i + 1) j 1).bind fun c1 =>
  store s1 i j 1 c1                            -- (*video)[i][j][1] = (*video)[i+1][j][1];

/-- The body of the loop that fills the new blank line (lines 66-67). -/
def blankCell (j : Int) (s : State) : Option State :=
  (store s s.ypos j 0 32).bind fun s1 =>      -- (*video)[ypos][j][0] = ' ';
  store s1 s1.ypos j 1 ATTRIBUTE              -- (*video)[ypos][j][1] = ATTRIBUTE;

/-- The scroll, lines 58-68 of `putchar`: the block of `if (++ypos >= LINES)`. -/
def scroll (s : State) : Option State :=
  let s1 := { s with ypos := LINES - 1 }
  (forLoop 25 (fun i t => i < t.ypos) (fun i t =>
      forLoop 81 (fun j _ => j < COLUMNS) (fun j u => copyCell i j u) 0 t) 0 s1).bind
    fun s2 => forLoop 81 (fun j _ => j < COLUMNS) (fun j u => blankCell j u) 0 s2

/-- The tail of `putchar`, lines 56-69: "Perform a newline". -/
def newline (s : State) : Option State :=
  let s1 := { s with xpos := 0 }
  (preinc s1.ypos).bind fun y =>
  let s2 := { s1 with ypos := y }
  if y ≥ LINES then scroll s2 else some s2

/-- The function `void putchar(char c)` (lines 45-70).  The character constants of
line 48 are 10 (newline) and 13 (carriage return); `Int.land c 0xFF` is `c & 0xFF`. -/
def putchar (c : Int) (s : State) : Option State :=
  if c ≠ 10 ∧ c ≠ 13 then
    (store s s.ypos s.xpos 0 (Int.land c 0xFF)).bind fun s1 =>
    (store s1 s1.ypos s1.xpos 1 ATTRIBUTE).bind fun s2 =>
    (preinc s2.xpos).bind fun x =>
    let s3 := { s2 with xpos := x }
    if x < COLUMNS then some s3               -- return;
    else newline s3
  else newline s

/-- The function `void puts(char *msg)` (lines 75-79).  The argument is the
buffer `msg` points into; reading past its end fails. -/
def puts : List Int → State → Option State
  | [], _ => none
  | c :: rest, s => if c ≠ 0 then (putchar c s).bind (fun t => puts rest t) else some s

/-! ## Definitions used to state the properties -/

/-- The byte that `cls` leaves at index `[a][b][c]`: a space, and the attribute
`ATTRIBUTE + b + a` converted to `unsigned char`. -/
def clsByte (a : Fin 25) (b : Fin 80) (c : Fin 2) : Byte :=
  if c = 0 then toByte 32 else toByte (ATTRIBUTE + (b.val : Int) + (a.val : Int))

/-- The byte that the scroll leaves at index `[24][b][c]`: a space with the
attribute `ATTRIBUTE`. -/
def blankByte (c : Fin 2) : Byte :=
  if c = 0 then toByte 32 else toByte ATTRIBUTE

/-- The screen after lines 49-50 of `putchar`: the character byte of `c` and the
attribute `ATTRIBUTE` at row `a`, column `b`. -/
def written (v : Screen) (a : Fin 25) (b : Fin 80) (c : Int) : Screen :=
  (v.set a b 0 (toByte c)).set a b 1 (toByte ATTRIBUTE)

/-- The screen whose byte at `[a][b][c]` is `f a b c`. -/
def Screen.ofFn (f : Fin 25 → Fin 80 → Fin 2 → Byte) : Screen :=
  ⟨Array.ofFn (fun (idx : Fin 4000) =>
      f ⟨idx.val / 160, by omega⟩ ⟨idx.val / 2 % 80, by omega⟩ ⟨idx.val % 2, by omega⟩),
   Array.size_ofFn _⟩

/-- The simultaneous shift of the screen by one row: every row takes the bytes
the row below it had, and the last row is blank. -/
def shiftUp (v : Screen) : Screen :=
  Screen.ofFn fun a b c =>
    if h : a.val + 1 < 25 then v.get ⟨a.val + 1, h⟩ b c else blankByte c

/-- The cursor bounds `0 <= ypos < LINES` and `0 <= xpos < COLUMNS`. -/
def InBounds (s : State) : Prop :=
  0 ≤ s.ypos ∧ s.ypos < LINES ∧ 0 ≤ s.xpos ∧ s.xpos < COLUMNS

instance (s : State) : Decidable (InBounds s) := by
  unfold InBounds
  infer_instance

/-- Calling `putchar` on the characters of a list, in order. -/
def putchars : List Int → State → Option State
  | [], s => some s
  | c :: rest, s => (putchar c s).bind (fun t => putchars rest t)

/-- The behaviour the specification gives for `write_string`: `putchar` once per
character, in order, for the characters that precede the first zero. -/
def putsSpec (msg : List Int) (s : State) : Option State :=
  putchars (msg.takeWhile (fun c => c ≠ 0)) s

/-- A call of one of the three driver functions. -/
inductive Call where
  | cls : Call
  | putchar : Int → Call
  | puts : List Int → Call

/-- The effect of a call on the driver state. -/
def Call.exec : Call → State → Option State
  | Call.cls, s => Hello.cls s
  | Call.putchar c, s => Hello.putchar c s
  | Call.puts msg, s => Hello.puts msg s

/-- The argument of a `puts` call is zero-terminated. -/
def Call.Terminated : Call → Prop
  | Call.puts msg => 0 ∈ msg
  | _ => True

/-- A sequence of driver calls, in order. -/
def run : List Call → State → Option State
  | [], s => some s
  | k :: rest, s => (k.exec s).bind (fun t => run rest t)

/-- A video memory holding zero bytes only. -/
def zeroScreen : Screen := ⟨mkArray 4000 0, Array.size_mkArray _ _⟩

/-- Invariant I2 of the specification: every cell holds a space with the gradient
attribute of its own position, `(12 + column + row) mod 256`, or has the base
attribute 12 (a character written by `putchar`). -/
def I2 (s : State) : Prop :=
  ∀ (a : Fin 25) (b : Fin 80),
    ((s.video.get a b 0).val = 32 ∧ (s.video.get a b 1).val = (12 + b.val + a.val) % 256) ∨
    (s.video.get a b 1).val = 12

/-- The variant of I2 that allows for scrolling: the gradient attribute is that of
a position in the same column, in the row of the cell or in a row below it. -/
def I2Below (s : State) : Prop :=
  ∀ (a : Fin 25) (b : Fin 80),
    ((s.video.get a b 0).val = 32 ∧
      ∃ r : Nat, a.val ≤ r ∧ r ≤ 24 ∧ (s.video.get a b 1).val = (12 + b.val + r) % 256) ∨
    (s.video.get a b 1).val = 12

/-- Every cell whose attribute is not 12 holds a space, and its attribute is
`12 + column + r` for a row `r` between the row of the cell and 24. -/
def AttrInv (v : Screen) : Prop :=
  ∀ (a : Fin 25) (b : Fin 80), (v.get a b 1).val ≠ 12 →
    (v.get a b 0).val = 32 ∧ ∃ r : Nat, a.val ≤ r ∧ r ≤ 24 ∧ (v.get a b 1).val = 12 + b.val + r

/-! ## Bytes and the screen array -/

theorem toByte_val (x : Int) : ((toByte x).val : Int) = x % 256 := by
  unfold toByte
  simp only []
  omega

theorem toByte_cast (b : Byte) : toByte (b.val : Int) = b := by
  apply Fin.ext
  have h := b.isLt
  unfold toByte
  simp only []
  omega

theorem ldiff_255 (m : Nat) : Nat.ldiff 255 m = 255 - m % 256 := by
  apply Nat.eq_of_testBit_eq
  intro i
  have h1 : (255 : Nat) = 2 ^ 8 - 1 := by norm_num
  have h2 : 255 - m % 256 = 2 ^ 8 - (m % 2 ^ 8 + 1) := by norm_num; omega
  rw [Nat.testBit_ldiff, h2, Nat.testBit_two_pow_sub_succ (Nat.mod_lt _ (by norm_num)),
    Nat.testBit_mod_two_pow, h1, Nat.testBit_two_pow_sub_one]
  by_cases h : i < 8 <;> simp [h]

theorem land_255 (c : Int) : Int.land c 0xFF = c % 256 := by
  cases c with
  | ofNat n =>
    show ((n &&& 255 : Nat) : Int) = _
    have := Nat.and_pow_two_sub_one_eq_mod n 8
    norm_num at this
    rw [this]
    simp
  | negSucc m =>
    show ((Nat.ldiff 255 m : Nat) : Int) = _
    rw [ldiff_255]
    have : Int.negSucc m = -(m : Int) - 1 := by rw [Int.negSucc_eq]; ring
    rw [this]
    omega

theorem Screen.get_set (v : Screen) (a a2 : Fin 25) (b b2 : Fin 80) (c c2 : Fin 2) (x : Byte) :
    (v.set a b c x).get a2 b2 c2 = if a2 = a ∧ b2 = b ∧ c2 = c then x else v.get a2 b2 c2 := by
  unfold Screen.get Screen.set
  simp only [Array.get_eq_getElem]
  rw [Array.getElem_set]
  have ha := a.isLt; have ha2 := a2.isLt; have hb := b.isLt; have hb2 := b2.isLt
  have hc := c.isLt; have hc2 := c2.isLt
  by_cases h : a2 = a ∧ b2 = b ∧ c2 = c
  · obtain ⟨rfl, rfl, rfl⟩ := h
    simp
  · rw [if_neg h, if_neg]
    intro he
    apply h
    simp only [Fin.ext_iff]
    simp only [] at he
    omega

theorem Screen.ext (v w : Screen) (h : ∀ a b c, v.get a b c = w.get a b c) : v = w := by
  obtain ⟨vb, hv⟩ := v
  obtain ⟨wb, hw⟩ := w
  have : vb = wb := by
    apply Array.ext
    · rw [hv, hw]
    · intro i h1 h2
      have hi : i < 4000 := by omega
      have := h ⟨i / 160, by omega⟩ ⟨(i / 2) % 80, by omega⟩ ⟨i % 2, by omega⟩
      unfold Screen.get at this
      simp only [Array.get_eq_getElem] at this
      have e : (i / 160 * 80 + i / 2 % 80) * 2 + i % 2 = i := by omega
      simp only [e] at this
      exact this
  subst this
  rfl

/-! ## Memory accesses and loops -/

theorem store_nat (s : State) (i j : Nat) (hi : i < 25) (hj : j < 80) (k : Fin 2) (x : Int) :
    store s (i : Int) (j : Int) k x
      = some { s with video := s.video.set ⟨i, hi⟩ ⟨j, hj⟩ k (toByte x) } := by
  unfold store
  rw [dif_pos (by unfold LINES COLUMNS; omega)]
  simp only [Int.toNat_ofNat]

theorem load_nat (s : State) (i j : Nat) (hi : i < 25) (hj : j < 80) (k : Fin 2) :
    load s (i : Int) (j : Int) k = some ((s.video.get ⟨i, hi⟩ ⟨j, hj⟩ k).val : Int) := by
  unfold load
  rw [dif_pos (by unfold LINES COLUMNS; omega)]
  simp only [Int.toNat_ofNat]

/-- Invariant rule for a counting loop: if the condition is `k < hi` on states
satisfying the invariant and the body re-establishes the invariant, the loop
started at `k ≤ hi` with more than `hi - k` units of fuel ends in a state
satisfying the invariant at `hi`. -/
theorem forLoop_inv (P : Nat → State → Prop) (hi : Nat) (cond : Int → State → Bool)
    (body : Int → State → Option State)
    (hc : ∀ k s, P k s → (cond (k : Int) s = true ↔ k < hi))
    (hb : ∀ k s, k < hi → P k s → ∃ t, body (k : Int) s = some t ∧ P (k + 1) t) :
    ∀ (fuel k : Nat) (s : State), k ≤ hi → hi - k < fuel → P k s →
      ∃ t, forLoop fuel cond body (k : Int) s = some t ∧ P hi t := by
  intro fuel
  induction fuel with
  | zero => intro k s _ h; omega
  | succ n ih =>
    intro k s hk hf hP
    unfold forLoop
    by_cases hlt : k < hi
    · rw [if_pos ((hc k s hP).2 hlt)]
      obtain ⟨t, ht, hPt⟩ := hb k s hlt hP
      rw [ht]
      simp only [Option.bind]
      have := ih (k + 1) t (by omega) (by omega) hPt
      simpa using this
    · have hkeq : k = hi := by omega
      have hcf : ¬ cond (k : Int) s = true := fun h => hlt ((hc k s hP).1 h)
      rw [if_neg hcf]
      exact ⟨s, rfl, hkeq ▸ hP⟩

/-! ## `cls` -/

theorem clsCell_nat (s : State) (i j : Nat) (hi : i < 25) (hj : j < 80) :
    clsCell (i : Int) (j : Int) s
      = some ⟨(s.video.set ⟨i, hi⟩ ⟨j, hj⟩ 0 (toByte 32)).set ⟨i, hi⟩ ⟨j, hj⟩ 1
                  (toByte (ATTRIBUTE + (j : Int) + (i : Int))), s.xpos, s.ypos⟩ := by
  unfold clsCell
  rw [store_nat s i j hi hj]
  simp only [Option.bind]
  rw [store_nat _ i j hi hj]

theorem cls_row (s : State) (i : Nat) (hi : i < 25) :
    ∃ t, forLoop 81 (fun j _ => j < COLUMNS) (fun j s2 => clsCell (i : Int) j s2) 0 s = some t ∧
      t.xpos = s.xpos ∧ t.ypos = s.ypos ∧
      ∀ a b c, t.video.get a b c = if a.val = i then clsByte a b c else s.video.get a b c := by
  have key := forLoop_inv
    (fun j t => t.xpos = s.xpos ∧ t.ypos = s.ypos ∧
      ∀ a b c, t.video.get a b c
        = if a.val = i ∧ b.val < j then clsByte a b c else s.video.get a b c)
    80 (fun j _ => j < COLUMNS) (fun j s2 => clsCell (i : Int) j s2)
    (by intro k t _; simp [COLUMNS])
    (by
      intro j t hj ⟨hx, hy, hv⟩
      refine ⟨_, clsCell_nat t i j hi hj, hx, hy, ?_⟩
      intro a b c
      fin_cases c <;> simp only [Screen.get_set, hv, clsByte, Fin.ext_iff] <;> split_ifs <;>
        first | rfl | omega | simp_all)
    81 0 s (by omega) (by omega)
    ⟨rfl, rfl, by intro a b c; simp⟩
  obtain ⟨t, ht, hx, hy, hv⟩ := key
  refine ⟨t, by simpa using ht, hx, hy, ?_⟩
  intro a b c
  rw [hv]
  have := b.isLt
  by_cases h1 : a.val = i <;> simp [h1, this]

/-- What `cls` does: it returns, every byte of the screen is the `clsByte` of its
index, and the cursor is at the origin. -/
theorem cls_spec (s : State) :
    ∃ t, cls s = some t ∧ t.xpos = 0 ∧ t.ypos = 0 ∧ ∀ a b c, t.video.get a b c = clsByte a b c := by
  have key := forLoop_inv
    (fun i t => ∀ a b c, t.video.get a b c
        = if a.val < i then clsByte a b c else s.video.get a b c)
    25 (fun i _ => i < LINES)
    (fun i s1 => forLoop 81 (fun j _ => j < COLUMNS) (fun j s2 => clsCell i j s2) 0 s1)
    (by intro k t _; simp [LINES])
    (by
      intro i t hi hv
      obtain ⟨u, hu, _, _, huv⟩ := cls_row t i hi
      refine ⟨u, hu, ?_⟩
      intro a b c
      rw [huv, hv]
      split_ifs <;> first | rfl | omega)
    26 0 s (by omega) (by omega) (by intro a b c; simp)
  obtain ⟨t, ht, hv⟩ := key
  refine ⟨{ t with ypos := 0, xpos := 0 }, ?_, rfl, rfl, ?_⟩
  · unfold cls
    simp only [Nat.cast_zero] at ht
    rw [ht]
    rfl
  · intro a b c
    show t.video.get a b c = _
    rw [hv, if_pos a.isLt]

/-- Two states with the same cursor and the same bytes everywhere are equal. -/
theorem State.ext_get (s t : State) (hx : s.xpos = t.xpos) (hy : s.ypos = t.ypos)
    (hv : ∀ a b c, s.video.get a b c = t.video.get a b c) : s = t := by
  obtain ⟨sv, sx, sy⟩ := s
  obtain ⟨tv, tx, ty⟩ := t
  simp only [] at hx hy hv
  have := Screen.ext sv tv hv
  subst hx hy this
  rfl

/-! ## The scroll -/

theorem copyCell_nat (s : State) (i j : Nat) (hi : i + 1 < 25) (hj : j < 80) :
    copyCell (i : Int) (j : Int) s
      = some ⟨(s.video.set ⟨i, by omega⟩ ⟨j, hj⟩ 0 (s.video.get ⟨i + 1, hi⟩ ⟨j, hj⟩ 0)).set
                ⟨i, by omega⟩ ⟨j, hj⟩ 1 (s.video.get ⟨i + 1, hi⟩ ⟨j, hj⟩ 1), s.xpos, s.ypos⟩ := by
  unfold copyCell
  have l0 := load_nat s (i + 1) j hi hj 0
  have l1 := load_nat ⟨s.video.set ⟨i, by omega⟩ ⟨j, hj⟩ 0
      (toByte ((s.video.get ⟨i + 1, hi⟩ ⟨j, hj⟩ 0).val : Int)), s.xpos, s.ypos⟩ (i + 1) j hi hj 1
  push_cast at l0 l1
  rw [l0, Option.some_bind, store_nat s i j (by omega) hj, Option.some_bind, l1,
    Option.some_bind, store_nat _ i j (by omega) hj]
  simp only [toByte_cast, Screen.get_set, Fin.ext_iff]
  simp

theorem copy_row (s : State) (i : Nat) (i2 : Fin 25) (hi : i2.val = i + 1) :
    ∃ t, forLoop 81 (fun j _ => j < COLUMNS) (fun j u => copyCell (i : Int) j u) 0 s = some t ∧
      t.xpos = s.xpos ∧ t.ypos = s.ypos ∧
      (∀ a b c, a.val = i → t.video.get a b c = s.video.get i2 b c) ∧
      (∀ a b c, a.val ≠ i → t.video.get a b c = s.video.get a b c) := by
  have hi2 := i2.isLt
  have key := forLoop_inv
    (fun j t => t.xpos = s.xpos ∧ t.ypos = s.ypos ∧
      (∀ a b c, a.val = i → b.val < j → t.video.get a b c = s.video.get i2 b c) ∧
      (∀ a b c, ¬ (a.val = i ∧ b.val < j) → t.video.get a b c = s.video.get a b c))
    80 (fun j _ => j < COLUMNS) (fun j u => copyCell (i : Int) j u)
    (by intro k t _; simp [COLUMNS])
    (by
      intro j t hj ⟨hx, hy, hv1, hv2⟩
      refine ⟨_, copyCell_nat t i j (by omega) hj, hx, hy, ?_, ?_⟩
      · intro a b c ha hb
        have e : (⟨i + 1, by omega⟩ : Fin 25) = i2 := Fin.ext hi.symm
        simp only [Screen.get_set, Fin.ext_iff, e]
        have r1 : ∀ c2, t.video.get i2 ⟨j, hj⟩ c2 = s.video.get i2 ⟨j, hj⟩ c2 :=
          fun c2 => hv2 i2 ⟨j, hj⟩ c2 (by simp only []; omega)
        by_cases hbj : b.val = j
        · have eb : b = ⟨j, hj⟩ := Fin.ext hbj
          subst eb
          fin_cases c <;> simp [ha, r1]
        · have hb2 : b.val < j := by omega
          simp [hbj, hv1 a b c ha hb2]
      · intro a b c hn
        simp only [Screen.get_set, Fin.ext_iff]
        have : ¬ (a.val = i ∧ b.val = j) := by omega
        rw [if_neg (fun h => this ⟨h.1, h.2.1⟩), if_neg (fun h => this ⟨h.1, h.2.1⟩)]
        exact congrArg Fin.val (hv2 a b c (by omega)))
    81 0 s (by omega) (by omega)
    ⟨rfl, rfl, by intro a b c _ h; omega, by intro a b c _; rfl⟩
  obtain ⟨t, ht, hx, hy, hv1, hv2⟩ := key
  refine ⟨t, by simpa using ht, hx, hy, ?_, ?_⟩
  · intro a b c ha
    exact hv1 a b c ha b.isLt
  · intro a b c ha
    exact hv2 a b c (fun h => ha h.1)

theorem blankCell_nat (s : State) (j : Nat) (hj : j < 80) (hy : s.ypos = 24) :
    blankCell (j : Int) s
      = some ⟨(s.video.set 24 ⟨j, hj⟩ 0 (toByte 32)).set 24 ⟨j, hj⟩ 1 (toByte ATTRIBUTE),
              s.xpos, s.ypos⟩ := by
  obtain ⟨v, x, y⟩ := s
  simp only [] at hy
  subst hy
  have h0 := store_nat ⟨v, x, 24⟩ 24 j (by omega) hj 0 32
  have h1 := store_nat ⟨v.set 24 ⟨j, hj⟩ 0 (toByte 32), x, 24⟩ 24 j (by omega) hj 1 ATTRIBUTE
  simp only [Nat.cast_ofNat] at h0 h1
  unfold blankCell
  simp only []
  rw [h0, Option.some_bind]
  exact h1

theorem blank_row (s : State) (hy : s.ypos = 24) :
    ∃ t, forLoop 81 (fun j _ => j < COLUMNS) (fun j u => blankCell j u) 0 s = some t ∧
      t.xpos = s.xpos ∧ t.ypos = s.ypos ∧
      (∀ a b c, a.val = 24 → t.video.get a b c = blankByte c) ∧
      (∀ a b c, a.val ≠ 24 → t.video.get a b c = s.video.get a b c) := by
  have key := forLoop_inv
    (fun j t => t.xpos = s.xpos ∧ t.ypos = s.ypos ∧
      (∀ a b c, a.val = 24 → b.val < j → t.video.get a b c = blankByte c) ∧
      (∀ a b c, ¬ (a.val = 24 ∧ b.val < j) → t.video.get a b c = s.video.get a b c))
    80 (fun j _ => j < COLUMNS) (fun j u => blankCell j u)
    (by intro k t _; simp [COLUMNS])
    (by
      intro j t hj ⟨hx, hty, hv1, hv2⟩
      refine ⟨_, blankCell_nat t j hj (by rw [hty, hy]), hx, hty, ?_, ?_⟩
      · intro a b c ha hb
        have ea : a = 24 := Fin.ext ha
        subst ea
        simp only [Screen.get_set, blankByte]
        by_cases hbj : b.val = j
        · have eb : b = ⟨j, hj⟩ := Fin.ext hbj
          subst eb
          fin_cases c <;> simp
        · have hb2 : b.val < j := by omega
          have hne : b ≠ ⟨j, hj⟩ := fun h => hbj (congrArg Fin.val h)
          simp only [hne, false_and, and_false, if_false]
          exact hv1 24 b c rfl hb2
      · intro a b c hn
        simp only [Screen.get_set]
        have : ¬ (a = 24 ∧ b = ⟨j, hj⟩) := by
          simp only [Fin.ext_iff]
          intro h
          apply hn
          have h24 : ((24 : Fin 25) : Nat) = 24 := rfl
          omega
        rw [if_neg (fun h => this ⟨h.1, h.2.1⟩), if_neg (fun h => this ⟨h.1, h.2.1⟩)]
        exact hv2 a b c (by omega))
    81 0 s (by omega) (by omega)
    ⟨rfl, rfl, by intro a b c _ h; omega, by intro a b c _; rfl⟩
  obtain ⟨t, ht, hx, hty, hv1, hv2⟩ := key
  refine ⟨t, by simpa using ht, hx, hty, ?_, ?_⟩
  · intro a b c ha
    exact hv1 a b c ha b.isLt
  · intro a b c ha
    exact hv2 a b c (fun h => ha h.1)

theorem copy_rows (s : State) (hy : s.ypos = 24) :
    ∃ t, forLoop 25 (fun i t => i < t.ypos) (fun i t =>
        forLoop 81 (fun j _ => j < COLUMNS) (fun j u => copyCell i j u) 0 t) 0 s = some t ∧
      t.xpos = s.xpos ∧ t.ypos = 24 ∧
      (∀ a a2 b c, a2.val = a.val + 1 → t.video.get a b c = s.video.get a2 b c) ∧
      (∀ a b c, a.val = 24 → t.video.get a b c = s.video.get a b c) := by
  have key := forLoop_inv
    (fun i t => t.xpos = s.xpos ∧ t.ypos = 24 ∧
      (∀ a a2 b c, a.val < i → a2.val = a.val + 1 → t.video.get a b c = s.video.get a2 b c) ∧
      (∀ a b c, i ≤ a.val → t.video.get a b c = s.video.get a b c))
    24 (fun i t => i < t.ypos)
    (fun i t => forLoop 81 (fun j _ => j < COLUMNS) (fun j u => copyCell i j u) 0 t)
    (by intro k t ⟨_, hty, _⟩; simp [hty])
    (by
      intro i t hi ⟨hx, hty, hv1, hv2⟩
      obtain ⟨u, hu, hux, huy, hu1, hu2⟩ := copy_row t i ⟨i + 1, by omega⟩ rfl
      refine ⟨u, hu, hux.trans hx, huy.trans hty, ?_, ?_⟩
      · intro a a2 b c ha ha2
        by_cases hai : a.val = i
        · have e : a2 = ⟨i + 1, by omega⟩ := Fin.ext (by simp only []; omega)
          rw [hu1 a b c hai, ← e]
          exact hv2 a2 b c (by omega)
        · rw [hu2 a b c hai]
          exact hv1 a a2 b c (by omega) ha2
      · intro a b c ha
        rw [hu2 a b c (by omega)]
        exact hv2 a b c (by omega))
    25 0 s (by omega) (by omega)
    ⟨rfl, hy, by intro a a2 b c h; omega, by intro a b c _; rfl⟩
  obtain ⟨t, ht, hx, hty, hv1, hv2⟩ := key
  refine ⟨t, by simpa using ht, hx, hty, ?_, ?_⟩
  · intro a a2 b c h
    have := a2.isLt
    exact hv1 a a2 b c (by omega) h
  · intro a b c ha
    exact hv2 a b c (by omega)

/-- What the scroll does: it returns, every row takes the bytes of the row below
it, the last row is blank, `xpos` is kept and `ypos` is 24. -/
theorem scroll_spec (s : State) :
    ∃ t, scroll s = some t ∧ t.xpos = s.xpos ∧ t.ypos = 24 ∧
      (∀ a a2 b c, a2.val = a.val + 1 → t.video.get a b c = s.video.get a2 b c) ∧
      (∀ a b c, a.val = 24 → t.video.get a b c = blankByte c) := by
  obtain ⟨t, ht, hx, hy, hv1, _⟩ := copy_rows { s with ypos := LINES - 1 } rfl
  obtain ⟨u, hu, hux, huy, hu1, hu2⟩ := blank_row t hy
  refine ⟨u, ?_, hux.trans hx, huy.trans hy, ?_, hu1⟩
  · unfold scroll
    simp only []
    rw [ht, Option.some_bind, hu]
  · intro a a2 b c h
    have := a2.isLt
    rw [hu2 a b c (by omega)]
    exact hv1 a a2 b c h

/-! ## `putchar` -/

theorem preinc_eq (x : Int) (h : x + 1 ≤ INT_MAX) : preinc x = some (x + 1) := by
  unfold preinc
  rw [if_pos h]

theorem newline_advance (s : State) (h : s.ypos + 1 < LINES) :
    newline s = some ⟨s.video, 0, s.ypos + 1⟩ := by
  unfold newline
  simp only []
  rw [preinc_eq _ (by unfold LINES at h; unfold INT_MAX; omega), Option.some_bind,
    if_neg (by omega)]

theorem newline_scroll (s : State) (h : LINES ≤ s.ypos + 1) (h2 : s.ypos + 1 ≤ INT_MAX) :
    newline s = scroll ⟨s.video, 0, s.ypos + 1⟩ := by
  unfold newline
  simp only []
  rw [preinc_eq _ h2, Option.some_bind, if_pos (by omega)]

theorem putchar_nl (s : State) : putchar 10 s = newline s := by
  unfold putchar
  rw [if_neg (by simp)]

theorem putchar_cr (s : State) : putchar 13 s = newline s := by
  unfold putchar
  rw [if_neg (by simp)]

theorem written_get (v : Screen) (a a2 : Fin 25) (b b2 : Fin 80) (c : Int) (k : Fin 2) :
    (written v a b c).get a2 b2 k
      = if a2 = a ∧ b2 = b then (if k = 0 then toByte c else toByte ATTRIBUTE)
        else v.get a2 b2 k := by
  unfold written
  simp only [Screen.get_set]
  fin_cases k <;> by_cases h : a2 = a ∧ b2 = b <;> simp [h]

theorem putchar_char (s : State) (c : Int) (y x : Nat) (hy : y < 25) (hx : x < 80)
    (hsy : s.ypos = y) (hsx : s.xpos = x) (hc : c ≠ 10 ∧ c ≠ 13) :
    putchar c s
      = if x + 1 < 80 then some ⟨written s.video ⟨y, hy⟩ ⟨x, hx⟩ c, x + 1, y⟩
        else newline ⟨written s.video ⟨y, hy⟩ ⟨x, hx⟩ c, x + 1, y⟩ := by
  obtain ⟨v, sx, sy⟩ := s
  simp only [] at hsy hsx
  subst hsy hsx
  unfold putchar
  rw [if_pos hc]
  simp only []
  rw [store_nat _ y x hy hx, Option.some_bind]
  simp only []
  rw [store_nat _ y x hy hx, Option.some_bind]
  simp only []
  rw [preinc_eq _ (by unfold INT_MAX; omega), Option.some_bind, land_255]
  have e : toByte (c % 256) = toByte c := by
    apply Fin.ext
    have h1 := toByte_val (c % 256)
    have h2 := toByte_val c
    omega
  simp only [e, COLUMNS, written]
  by_cases h : x + 1 < 80
  · rw [if_pos h, if_pos (by omega)]
  · rw [if_neg h, if_neg (by omega)]

/-! ## Cursor bounds -/

theorem newline_inBounds (s : State) (h0 : 0 ≤ s.ypos) (h1 : s.ypos < LINES) :
    ∃ t, newline s = some t ∧ InBounds t := by
  by_cases h : s.ypos + 1 < LINES
  · refine ⟨_, newline_advance s h, ?_⟩
    unfold InBounds COLUMNS
    simp only []
    omega
  · obtain ⟨t, ht, hx, hy, _⟩ := scroll_spec ⟨s.video, 0, s.ypos + 1⟩
    refine ⟨t, ?_, ?_⟩
    · rw [newline_scroll s (by omega) (by unfold LINES at h1; unfold INT_MAX; omega)]
      exact ht
    · unfold InBounds LINES COLUMNS
      simp only [] at hx
      omega

theorem putchar_inBounds (s : State) (c : Int) (h : InBounds s) :
    ∃ t, putchar c s = some t ∧ InBounds t := by
  obtain ⟨hy0, hy1, hx0, hx1⟩ := h
  by_cases hc : c ≠ 10 ∧ c ≠ 13
  · unfold LINES at hy1
    unfold COLUMNS at hx1
    rw [putchar_char s c s.ypos.toNat s.xpos.toNat (by omega) (by omega) (by omega) (by omega) hc]
    by_cases hw : s.xpos.toNat + 1 < 80
    · rw [if_pos hw]
      refine ⟨_, rfl, ?_⟩
      unfold InBounds LINES COLUMNS
      simp only []
      omega
    · rw [if_neg hw]
      apply newline_inBounds
      · simp
      · unfold LINES
        simp only []
        omega
  · have e : putchar c s = newline s := by
      by_cases h10 : c = 10
      · subst h10
        exact putchar_nl s
      · have h13 : c = 13 := by
          by_contra h13
          exact hc ⟨h10, h13⟩
        subst h13
        exact putchar_cr s
    rw [e]
    exact newline_inBounds s hy0 hy1

theorem putchars_inBounds (cs : List Int) :
    ∀ s, InBounds s → ∃ t, putchars cs s = some t ∧ InBounds t := by
  induction cs with
  | nil => intro s h; exact ⟨s, rfl, h⟩
  | cons c rest ih =>
    intro s h
    obtain ⟨t, ht, hb⟩ := putchar_inBounds s c h
    obtain ⟨u, hu, hub⟩ := ih t hb
    refine ⟨u, ?_, hub⟩
    unfold putchars
    rw [ht, Option.some_bind]
    exact hu

theorem puts_inBounds (msg : List Int) :
    ∀ s, InBounds s → 0 ∈ msg → ∃ t, puts msg s = some t ∧ InBounds t := by
  induction msg with
  | nil => intro s _ h; simp at h
  | cons c rest ih =>
    intro s hb hm
    unfold puts
    by_cases hc : c ≠ 0
    · rw [if_pos hc]
      obtain ⟨t, ht, htb⟩ := putchar_inBounds s c hb
      rw [ht, Option.some_bind]
      have hr : 0 ∈ rest := by
        rcases List.mem_cons.1 hm with h | h
        · exact absurd h.symm hc
        · exact h
      exact ih t htb hr
    · rw [if_neg hc]
      exact ⟨s, rfl, hb⟩

theorem cls_inBounds (s : State) : ∃ t, cls s = some t ∧ InBounds t := by
  obtain ⟨t, ht, hx, hy, _⟩ := cls_spec s
  refine ⟨t, ht, ?_⟩
  unfold InBounds LINES COLUMNS
  omega

theorem exec_inBounds (k : Call) (s : State) (h : InBounds s) (hk : k.Terminated) :
    ∃ t, k.exec s = some t ∧ InBounds t := by
  cases k with
  | cls => exact cls_inBounds s
  | putchar c => exact putchar_inBounds s c h
  | puts msg => exact puts_inBounds msg s h hk

theorem run_inBounds (calls : List Call) :
    ∀ s, InBounds s → (∀ k ∈ calls, k.Terminated) → ∃ t, run calls s = some t ∧ InBounds t := by
  induction calls with
  | nil => intro s h _; exact ⟨s, rfl, h⟩
  | cons k rest ih =>
    intro s h hk
    obtain ⟨t, ht, htb⟩ := exec_inBounds k s h (hk k (List.mem_cons_self _ _))
    obtain ⟨u, hu, hub⟩ := ih t htb (fun k2 h2 => hk k2 (List.mem_cons_of_mem _ h2))
    refine ⟨u, ?_, hub⟩
    unfold run
    rw [ht, Option.some_bind]
    exact hu

/-- C1: cursor bounds are preserved by every driver operation.  From a state
within the bounds `putchar c` returns a state within the bounds, for every
character; `cls` does so from any state; `puts msg` does so for every
zero-terminated `msg`; hence every sequence of `cls`, `putchar` and `puts` calls
(on zero-terminated strings) started with the cursor at (0,0) returns a state
within the bounds. -/
theorem cursor_bounds_preserved (s : State) (c : Int) (msg : List Int) (calls : List Call) :
    (InBounds s → ∃ t, putchar c s = some t ∧ InBounds t) ∧
    (∃ t, cls s = some t ∧ InBounds t) ∧
    (InBounds s → 0 ∈ msg → ∃ t, puts msg s = some t ∧ InBounds t) ∧
    (s.ypos = 0 → s.xpos = 0 → (∀ k ∈ calls, k.Terminated) →
      ∃ t, run calls s = some t ∧ InBounds t) := by
  refine ⟨putchar_inBounds s c, cls_inBounds s, puts_inBounds msg s, ?_⟩
  intro hy hx hk
  apply run_inBounds calls s _ hk
  unfold InBounds LINES COLUMNS
  omega

/-- Witness of C1: the calls `cls(); puts("AB\n"); putchar('X')` from the initial
cursor, and `putchar('X')` in the bottom-right corner. -/
theorem cursor_bounds_preserved_witness :
    InBounds ⟨zeroScreen, 79, 24⟩ ∧ (0 : Int) ∈ [65, 66, 10, 0] ∧
    (∃ t, putchar 88 ⟨zeroScreen, 79, 24⟩ = some t ∧ InBounds t) ∧
    (∃ t, puts [65, 66, 10, 0] ⟨zeroScreen, 79, 24⟩ = some t ∧ InBounds t) ∧
    (∃ t, run [Call.cls, Call.puts [65, 66, 10, 0], Call.putchar 88] ⟨zeroScreen, 0, 0⟩ = some t ∧
      InBounds t) :=
  ⟨by decide, by decide,
   (cursor_bounds_preserved ⟨zeroScreen, 79, 24⟩ 88 [] []).1 (by decide),
   (cursor_bounds_preserved ⟨zeroScreen, 79, 24⟩ 0 [65, 66, 10, 0] []).2.2.1 (by decide)
     (by decide),
   (cursor_bounds_preserved ⟨zeroScreen, 0, 0⟩ 0 []
      [Call.cls, Call.puts [65, 66, 10, 0], Call.putchar 88]).2.2.2 rfl rfl
     (by intro k hk; simp at hk; rcases hk with rfl | rfl | rfl <;> simp [Call.Terminated])⟩

/-! ## Postconditions of `cls` and `putchar` -/

theorem Screen.get_ofFn (f : Fin 25 → Fin 80 → Fin 2 → Byte) (a : Fin 25) (b : Fin 80)
    (c : Fin 2) : (Screen.ofFn f).get a b c = f a b c := by
  unfold Screen.get Screen.ofFn
  simp only [Array.get_eq_getElem, Array.getElem_ofFn]
  have ha := a.isLt; have hb := b.isLt; have hc := c.isLt
  congr 1 <;> apply Fin.ext <;> simp only [] <;> omega

theorem blankByte_val :
    (blankByte 0).val = 32 ∧ (blankByte 1).val = 12 := by
  constructor <;> rfl

/-- C2: postcondition of `cls`.  From every state `cls` returns; afterwards every
cell (a, b) holds the character 32 (a space) and the attribute
`(12 + b + a) mod 256`, and the cursor is (0, 0). -/
theorem cls_postcondition (s : State) :
    ∃ t, cls s = some t ∧
      (∀ (a : Fin 25) (b : Fin 80),
        (t.video.get a b 0).val = 32 ∧ (t.video.get a b 1).val = (12 + b.val + a.val) % 256) ∧
      t.ypos = 0 ∧ t.xpos = 0 := by
  obtain ⟨t, ht, hx, hy, hv⟩ := cls_spec s
  refine ⟨t, ht, ?_, hy, hx⟩
  intro a b
  rw [hv, hv]
  constructor
  · rfl
  · have h := toByte_val (ATTRIBUTE + (b.val : Int) + (a.val : Int))
    have e : clsByte a b 1 = toByte (ATTRIBUTE + (b.val : Int) + (a.val : Int)) := rfl
    rw [e]
    unfold ATTRIBUTE at h ⊢
    omega

/-- C3: scroll correctness of `putchar`.  From a state with `ypos = 24` and
`0 <= xpos < 80`, `putchar('\n')` returns; every cell of a row `a` takes both
bytes of the cell below it in the old grid (new (i-1, j) = old (i, j) for i in
1..24, so only old row 0 is lost), every cell of row 24 is a space with
attribute 12, the cursor is (24, 0), and the new grid is the simultaneous
shift `shiftUp` of the old grid. -/
theorem putchar_scroll_correct (s : State) (hy : s.ypos = 24) (_hx0 : 0 ≤ s.xpos)
    (_hx1 : s.xpos < 80) :
    ∃ t, putchar 10 s = some t ∧
      (∀ (a a2 : Fin 25) (b : Fin 80) (c : Fin 2), a2.val = a.val + 1 →
        t.video.get a b c = s.video.get a2 b c) ∧
      (∀ b : Fin 80, (t.video.get 24 b 0).val = 32 ∧ (t.video.get 24 b 1).val = 12) ∧
      t.ypos = 24 ∧ t.xpos = 0 ∧ t.video = shiftUp s.video := by
  obtain ⟨t, ht, htx, hty, hv1, hv2⟩ := scroll_spec ⟨s.video, 0, s.ypos + 1⟩
  simp only [] at htx hv1
  refine ⟨t, ?_, hv1, ?_, hty, htx, ?_⟩
  · rw [putchar_nl, newline_scroll s (by rw [hy]; decide) (by rw [hy]; decide)]
    exact ht
  · intro b
    rw [hv2 24 b 0 rfl, hv2 24 b 1 rfl]
    exact blankByte_val
  · apply Screen.ext
    intro a b c
    unfold shiftUp
    rw [Screen.get_ofFn]
    by_cases h : a.val + 1 < 25
    · rw [dif_pos h]
      exact hv1 a ⟨a.val + 1, h⟩ b c rfl
    · rw [dif_neg h]
      have := a.isLt
      exact hv2 a b c (by omega)

/-- Witness of C3: the cursor at (24, 5). -/
theorem putchar_scroll_correct_witness :
    ∃ t, putchar 10 ⟨zeroScreen, 5, 24⟩ = some t ∧
      (∀ (a a2 : Fin 25) (b : Fin 80) (c : Fin 2), a2.val = a.val + 1 →
        t.video.get a b c = zeroScreen.get a2 b c) ∧
      (∀ b : Fin 80, (t.video.get 24 b 0).val = 32 ∧ (t.video.get 24 b 1).val = 12) ∧
      t.ypos = 24 ∧ t.xpos = 0 ∧ t.video = shiftUp zeroScreen :=
  putchar_scroll_correct ⟨zeroScreen, 5, 24⟩ rfl (by decide) (by decide)

/-- C4: ordinary character write.  From a state with `0 <= ypos < 25` and
`0 <= xpos < 79`, for a character `c` other than newline (10) and carriage
return (13), `putchar c` returns; the cell at the old cursor holds the character
byte `c mod 256` and the attribute 12, `xpos` has increased by 1, `ypos` is
unchanged, and every other cell is unchanged. -/
theorem putchar_ordinary_write (s : State) (c : Int) (hy0 : 0 ≤ s.ypos) (hy1 : s.ypos < 25)
    (hx0 : 0 ≤ s.xpos) (hx1 : s.xpos < 79) (hn : c ≠ 10) (hr : c ≠ 13) :
    ∃ t, putchar c s = some t ∧ t.xpos = s.xpos + 1 ∧ t.ypos = s.ypos ∧
      ∀ (a : Fin 25) (b : Fin 80),
        (((a.val : Int) = s.ypos ∧ (b.val : Int) = s.xpos) →
          ((t.video.get a b 0).val : Int) = c % 256 ∧ (t.video.get a b 1).val = 12) ∧
        (¬ ((a.val : Int) = s.ypos ∧ (b.val : Int) = s.xpos) →
          ∀ k, t.video.get a b k = s.video.get a b k) := by
  have e := putchar_char s c s.ypos.toNat s.xpos.toNat (by omega) (by omega) (by omega)
    (by omega) ⟨hn, hr⟩
  rw [if_pos (by omega)] at e
  refine ⟨_, e, ?_, ?_, ?_⟩
  · simp only []
    omega
  · simp only []
    omega
  · intro a b
    constructor
    · intro ⟨ha, hb⟩
      have h1 : a = ⟨s.ypos.toNat, by omega⟩ := Fin.ext (by simp only []; omega)
      have h2 : b = ⟨s.xpos.toNat, by omega⟩ := Fin.ext (by simp only []; omega)
      have hab : a = ⟨s.ypos.toNat, by omega⟩ ∧ b = ⟨s.xpos.toNat, by omega⟩ := ⟨h1, h2⟩
      simp only [written_get, if_pos hab]
      exact ⟨toByte_val c, rfl⟩
    · intro hne k
      have h : ¬ (a = ⟨s.ypos.toNat, by omega⟩ ∧ b = ⟨s.xpos.toNat, by omega⟩) := by
        simp only [Fin.ext_iff]
        omega
      rw [written_get, if_neg h]

/-- Witness of C4: the character 'A' written at the cursor (3, 78). -/
theorem putchar_ordinary_write_witness :
    ∃ t, putchar 65 ⟨zeroScreen, 78, 3⟩ = some t ∧ t.xpos = 78 + 1 ∧ t.ypos = 3 ∧
      ∀ (a : Fin 25) (b : Fin 80),
        (((a.val : Int) = 3 ∧ (b.val : Int) = 78) →
          ((t.video.get a b 0).val : Int) = 65 % 256 ∧ (t.video.get a b 1).val = 12) ∧
        (¬ ((a.val : Int) = 3 ∧ (b.val : Int) = 78) →
          ∀ k, t.video.get a b k = zeroScreen.get a b k) :=
  putchar_ordinary_write ⟨zeroScreen, 78, 3⟩ 65 (by decide) (by decide) (by decide) (by decide)
    (by decide) (by decide)

/-- C5: line advance without scroll.  From a state with `0 <= ypos < 24` and
`0 <= xpos < 80`, `putchar('\n')` returns the state with the same video memory
(no cell is written) and the cursor (ypos + 1, 0). -/
theorem putchar_newline_no_scroll (s : State) (hy0 : 0 ≤ s.ypos) (hy1 : s.ypos < 24)
    (_hx0 : 0 ≤ s.xpos) (_hx1 : s.xpos < 80) :
    putchar 10 s = some ⟨s.video, 0, s.ypos + 1⟩ := by
  rw [putchar_nl]
  exact newline_advance s (by unfold LINES; omega)

/-- Witness of C5: the cursor at (23, 79). -/
theorem putchar_newline_no_scroll_witness :
    putchar 10 ⟨zeroScreen, 79, 23⟩ = some ⟨zeroScreen, 0, 23 + 1⟩ :=
  putchar_newline_no_scroll ⟨zeroScreen, 79, 23⟩ (by decide) (by decide) (by decide) (by decide)

/-! ## Newline, carriage return and `puts` -/

theorem shiftUp_of_scroll (s t : State) (h : scroll s = some t) : t.video = shiftUp s.video := by
  obtain ⟨u, hu, _, _, hv1, hv2⟩ := scroll_spec s
  rw [hu] at h
  have e : u = t := Option.some.inj h
  subst e
  apply Screen.ext
  intro a b c
  unfold shiftUp
  rw [Screen.get_ofFn]
  by_cases h : a.val + 1 < 25
  · rw [dif_pos h]
    exact hv1 a ⟨a.val + 1, h⟩ b c rfl
  · rw [dif_neg h]
    have := a.isLt
    exact hv2 a b c (by omega)

/-- C6: carriage return and newline are treated identically.  For every state
`putchar('\r')` and `putchar('\n')` have the same result, which is the result
of the newline block (lines 56-69) run on the unmodified state: the stores at
the cursor cell of lines 49-50 are not executed.  From a state within the
bounds both return; when `ypos < 24` the video memory is unchanged, and when
`ypos = 24` it is the shift of the old memory, so neither character was stored
at the cursor. -/
theorem cr_nl_identical (s : State) :
    putchar 13 s = putchar 10 s ∧ putchar 10 s = newline s ∧
    (InBounds s → ∃ t, putchar 13 s = some t ∧ putchar 10 s = some t ∧
      (s.ypos < 24 → t.video = s.video) ∧ (s.ypos = 24 → t.video = shiftUp s.video)) := by
  refine ⟨by rw [putchar_cr, putchar_nl], putchar_nl s, ?_⟩
  intro ⟨hy0, hy1, _, _⟩
  rw [putchar_cr, putchar_nl]
  by_cases h : s.ypos < 24
  · refine ⟨_, newline_advance s (by unfold LINES; omega), newline_advance s (by unfold LINES; omega),
      fun _ => rfl, fun h2 => ?_⟩
    omega
  · unfold LINES at hy1
    have e := newline_scroll s (by unfold LINES; omega) (by unfold INT_MAX; omega)
    obtain ⟨t, ht, _⟩ := scroll_spec ⟨s.video, 0, s.ypos + 1⟩
    refine ⟨t, e.trans ht, e.trans ht, fun h2 => absurd h2 h, fun _ => ?_⟩
    exact shiftUp_of_scroll ⟨s.video, 0, s.ypos + 1⟩ t ht

/-- Witness of C6: the cursor at (24, 7), where the newline scrolls. -/
theorem cr_nl_identical_witness :
    InBounds ⟨zeroScreen, 7, 24⟩ ∧
    ∃ t, putchar 13 ⟨zeroScreen, 7, 24⟩ = some t ∧ putchar 10 ⟨zeroScreen, 7, 24⟩ = some t ∧
      ((⟨zeroScreen, 7, 24⟩ : State).ypos < 24 → t.video = zeroScreen) ∧
      ((⟨zeroScreen, 7, 24⟩ : State).ypos = 24 → t.video = shiftUp zeroScreen) :=
  ⟨by decide, (cr_nl_identical ⟨zeroScreen, 7, 24⟩).2.2 (by decide)⟩

theorem puts_eq_putsSpec (msg : List Int) :
    ∀ s, 0 ∈ msg → puts msg s = putsSpec msg s := by
  induction msg with
  | nil => intro s h; simp at h
  | cons c rest ih =>
    intro s hm
    unfold puts putsSpec
    by_cases hc : c ≠ 0
    · have hr : 0 ∈ rest := by
        rcases List.mem_cons.1 hm with h | h
        · exact absurd h.symm hc
        · exact h
      rw [if_pos hc, List.takeWhile_cons_of_pos (by simpa using hc)]
      unfold putchars
      cases hp : putchar c s with
      | none => rfl
      | some t =>
        rw [Option.some_bind, Option.some_bind]
        exact ih t hr
    · rw [if_neg hc, List.takeWhile_cons_of_neg (by simpa using hc)]
      rfl

theorem takeWhile_append_zero (pre post : List Int) (h : ∀ c ∈ pre, c ≠ 0) :
    (pre ++ 0 :: post).takeWhile (fun c => c ≠ 0) = pre := by
  induction pre with
  | nil => simp
  | cons c rest ih =>
    have hc : c ≠ 0 := h c (List.mem_cons_self _ _)
    rw [List.cons_append, List.takeWhile_cons_of_pos (by simpa using hc),
      ih (fun d hd => h d (List.mem_cons_of_mem _ hd))]

/-! ## Sequences of `putchar` calls -/

theorem putchars_append (l1 l2 : List Int) :
    ∀ s, putchars (l1 ++ l2) s = (putchars l1 s).bind (fun t => putchars l2 t) := by
  induction l1 with
  | nil => intro s; rfl
  | cons c rest ih =>
    intro s
    show (putchar c s).bind (fun t => putchars (rest ++ l2) t)
      = ((putchar c s).bind (fun t => putchars rest t)).bind (fun t => putchars l2 t)
    cases putchar c s with
    | none => rfl
    | some t => exact ih t

/-- Writing the characters `cs`, none a newline or carriage return, from column
`x` of a row `y < 24`, when they fit in the row: the characters are in the cells
from column `x` on with attribute 12, all other bytes are unchanged, and the
cursor is behind the last character, or at the start of the next row when the
last column was written. -/
theorem putchars_row (cs : List Int) :
    ∀ (s : State) (y x : Nat), s.ypos = y → s.xpos = x → y < 24 → x + cs.length ≤ 80 →
      (∀ c ∈ cs, c ≠ 10 ∧ c ≠ 13) →
      ∃ t, putchars cs s = some t ∧
        (x + cs.length < 80 → t.ypos = y ∧ t.xpos = (x + cs.length : Nat)) ∧
        (x + cs.length = 80 → cs ≠ [] → t.ypos = (y + 1 : Nat) ∧ t.xpos = 0) ∧
        (∀ (a : Fin 25) (b : Fin 80), a.val = y → x ≤ b.val → b.val < x + cs.length →
          ((t.video.get a b 0).val : Int) = cs.getD (b.val - x) 0 % 256 ∧
          (t.video.get a b 1).val = 12) ∧
        (∀ (a : Fin 25) (b : Fin 80) (k : Fin 2),
          ¬ (a.val = y ∧ x ≤ b.val ∧ b.val < x + cs.length) →
          t.video.get a b k = s.video.get a b k) := by
  induction cs with
  | nil =>
    intro s y x hy hx _ _ _
    refine ⟨s, rfl, fun _ => ⟨hy, by simpa using hx⟩, fun _ h => absurd rfl h, ?_, fun _ _ _ _ => rfl⟩
    intro a b _ h1 h2
    simp only [List.length_nil] at h2
    omega
  | cons c rest ih =>
    intro s y x hy hx hy24 hlen hcs
    simp only [List.length_cons] at hlen ⊢
    have hc := hcs c (List.mem_cons_self _ _)
    have hrest : ∀ d ∈ rest, d ≠ 10 ∧ d ≠ 13 := fun d hd => hcs d (List.mem_cons_of_mem _ hd)
    have p := putchar_char s c y x (by omega) (by omega) hy hx hc
    have cell : ∀ (a : Fin 25) (b : Fin 80), a.val = y → b.val = x →
        (((written s.video ⟨y, by omega⟩ ⟨x, by omega⟩ c).get a b 0).val : Int) = c % 256 ∧
        ((written s.video ⟨y, by omega⟩ ⟨x, by omega⟩ c).get a b 1).val = 12 := by
      intro a b ha hb
      have hab : a = ⟨y, by omega⟩ ∧ b = ⟨x, by omega⟩ := ⟨Fin.ext ha, Fin.ext hb⟩
      simp only [written_get, if_pos hab]
      exact ⟨toByte_val c, rfl⟩
    have frame : ∀ (a : Fin 25) (b : Fin 80) (k : Fin 2), ¬ (a.val = y ∧ b.val = x) →
        (written s.video ⟨y, by omega⟩ ⟨x, by omega⟩ c).get a b k = s.video.get a b k := by
      intro a b k hn
      have hab : ¬ (a = ⟨y, by omega⟩ ∧ b = ⟨x, by omega⟩) := by
        simp only [Fin.ext_iff]
        exact hn
      rw [written_get, if_neg hab]
    unfold putchars
    by_cases hw : x + 1 < 80
    · rw [if_pos hw] at p
      rw [p, Option.some_bind]
      obtain ⟨t, ht, hc1, hc2, hv1, hv2⟩ := ih
        ⟨written s.video ⟨y, by omega⟩ ⟨x, by omega⟩ c, (x : Int) + 1, (y : Int)⟩ y (x + 1)
        rfl (by push_cast; rfl) hy24 (by omega) hrest
      refine ⟨t, ht, ?_, ?_, ?_, ?_⟩
      · intro h
        have := hc1 (by omega)
        refine ⟨this.1, ?_⟩
        rw [this.2]
        push_cast
        ring
      · intro h _
        have hne : rest ≠ [] := by
          intro e
          rw [e] at h
          simp only [List.length_nil] at h
          omega
        exact hc2 (by omega) hne
      · intro a b ha h1 h2
        by_cases hb : b.val = x
        · have e : b.val - x = 0 := by omega
          rw [e, List.getD_cons_zero, hv2 a b 0 (by omega), hv2 a b 1 (by omega)]
          exact cell a b ha hb
        · have e : b.val - x = (b.val - (x + 1)) + 1 := by omega
          rw [e, List.getD_cons_succ]
          exact hv1 a b ha (by omega) (by omega)
      · intro a b k hn
        rw [hv2 a b k (by omega)]
        exact frame a b k (by omega)
    · rw [if_neg hw] at p
      have hr : rest = [] := List.eq_nil_of_length_eq_zero (by omega)
      subst hr
      rw [p, newline_advance _ (by unfold LINES; simp only []; omega), Option.some_bind]
      refine ⟨_, rfl, ?_, ?_, ?_, ?_⟩
      · intro h
        simp only [List.length_nil] at h
        omega
      · intro _ _
        exact ⟨by simp only []; push_cast; rfl, rfl⟩
      · intro a b ha h1 h2
        simp only [List.length_nil] at h2
        have hb : b.val = x := by omega
        have e : b.val - x = 0 := by omega
        rw [e, List.getD_cons_zero]
        exact cell a b ha hb
      · intro a b k hn
        simp only [List.length_nil] at hn
        exact frame a b k (by omega)

/-! ## `puts` -/

/-- The scenario `cls(); puts("AB\n")`: the two characters are in the first two
cells of row 0 with attribute 12 and the cursor is (1, 0). -/
theorem cls_puts_AB (s : State) :
    ∃ t u, cls s = some t ∧ puts [65, 66, 10, 0] t = some u ∧
      (u.video.get 0 0 0).val = 65 ∧ (u.video.get 0 0 1).val = 12 ∧
      (u.video.get 0 1 0).val = 66 ∧ (u.video.get 0 1 1).val = 12 ∧
      u.ypos = 1 ∧ u.xpos = 0 := by
  obtain ⟨t, ht, hx, hy, _⟩ := cls_spec s
  obtain ⟨u, hu, hc1, _, hv1, _⟩ := putchars_row [65, 66] t 0 0 (by simpa using hy)
    (by simpa using hx) (by decide) (by decide) (by decide)
  obtain ⟨huy, hux⟩ := hc1 (by decide)
  have hnl : putchar 10 u = some ⟨u.video, 0, u.ypos + 1⟩ := by
    rw [putchar_nl]
    exact newline_advance u (by rw [huy]; decide)
  refine ⟨t, ⟨u.video, 0, u.ypos + 1⟩, ht, ?_, ?_, ?_, ?_, ?_, ?_, rfl⟩
  · rw [puts_eq_putsSpec _ _ (by decide)]
    show putchars ([65, 66] ++ [10]) t = _
    rw [putchars_append, hu, Option.some_bind]
    unfold putchars
    rw [hnl, Option.some_bind]
    rfl
  · have h := (hv1 0 0 rfl (by decide) (by decide)).1
    have e : ([65, 66] : List Int).getD (((0 : Fin 80) : Nat) - 0) 0 % 256 = 65 := by decide
    rw [e] at h
    exact_mod_cast h
  · exact (hv1 0 0 rfl (by decide) (by decide)).2
  · have h := (hv1 0 1 rfl (by decide) (by decide)).1
    have e : ([65, 66] : List Int).getD (((1 : Fin 80) : Nat) - 0) 0 % 256 = 66 := by decide
    rw [e] at h
    exact_mod_cast h
  · exact (hv1 0 1 rfl (by decide) (by decide)).2
  · simp only [huy]
    rfl

/-- C7: `puts` is `putchar` iterated.  For a zero-terminated `msg`, `puts msg`
has the result of calling `putchar` on the characters before the first zero, in
order (`putsSpec`); if `msg` is `pre`, a zero, `post` with no zero in `pre`,
that is `putchars pre`, whatever `post` is; from a state within the bounds it
returns.  Scenario: from any state, after `cls()` and `puts("AB\n")` the cells
(0,0) and (0,1) are ('A', 12) and ('B', 12) and the cursor is (1, 0). -/
theorem puts_is_putchar_iterated (s : State) (msg : List Int) (h : 0 ∈ msg) :
    puts msg s = putsSpec msg s ∧
    (∀ pre post, msg = pre ++ 0 :: post → (∀ c ∈ pre, c ≠ 0) → puts msg s = putchars pre s) ∧
    (InBounds s → ∃ t, puts msg s = some t) ∧
    (∃ t u, cls s = some t ∧ puts [65, 66, 10, 0] t = some u ∧
      (u.video.get 0 0 0).val = 65 ∧ (u.video.get 0 0 1).val = 12 ∧
      (u.video.get 0 1 0).val = 66 ∧ (u.video.get 0 1 1).val = 12 ∧
      u.ypos = 1 ∧ u.xpos = 0) := by
  refine ⟨puts_eq_putsSpec msg s h, ?_, ?_, cls_puts_AB s⟩
  · intro pre post hm hpre
    rw [puts_eq_putsSpec msg s h]
    unfold putsSpec
    rw [hm, takeWhile_append_zero pre post hpre]
  · intro hb
    obtain ⟨t, ht, _⟩ := puts_inBounds msg s hb h
    exact ⟨t, ht⟩

/-- Witness of C7: the string "AB\n" with its terminator, followed by a byte that
is never read. -/
theorem puts_is_putchar_iterated_witness :
    (0 : Int) ∈ [65, 66, 10, 0, 67] ∧
    puts [65, 66, 10, 0, 67] ⟨zeroScreen, 0, 0⟩ = putchars [65, 66, 10] ⟨zeroScreen, 0, 0⟩ :=
  ⟨by decide,
   (puts_is_putchar_iterated ⟨zeroScreen, 0, 0⟩ [65, 66, 10, 0, 67] (by decide)).2.1
     [65, 66, 10] [67] rfl (by decide)⟩

/-! ## Full rows, repeated newlines, and idempotence of `cls` -/

/-- C8: a full-row write wraps exactly once.  From a state with `xpos = 0` and
`ypos = r`, `0 <= r < 24`, calling `putchar` on 80 characters, none a newline or
carriage return, returns; the cursor is (r + 1, 0), the cell (r, j) holds the
byte `c_j mod 256` and the attribute 12 for every column j, and every cell
outside row r is unchanged. -/
theorem full_row_wraps_once (s : State) (cs : List Int) (r : Int) (hx : s.xpos = 0)
    (hy : s.ypos = r) (hr0 : 0 ≤ r) (hr : r < 24) (hlen : cs.length = 80)
    (hcs : ∀ c ∈ cs, c ≠ 10 ∧ c ≠ 13) :
    ∃ t, putchars cs s = some t ∧ t.ypos = r + 1 ∧ t.xpos = 0 ∧
      (∀ (a : Fin 25) (b : Fin 80), (a.val : Int) = r →
        ((t.video.get a b 0).val : Int) = cs.getD b.val 0 % 256 ∧
        (t.video.get a b 1).val = 12) ∧
      (∀ (a : Fin 25) (b : Fin 80) (k : Fin 2), (a.val : Int) ≠ r →
        t.video.get a b k = s.video.get a b k) := by
  obtain ⟨t, ht, _, hc2, hv1, hv2⟩ := putchars_row cs s r.toNat 0 (by omega) (by simpa using hx)
    (by omega) (by omega) hcs
  have hne : cs ≠ [] := by
    intro e
    rw [e] at hlen
    simp at hlen
  obtain ⟨hty, htx⟩ := hc2 (by omega) hne
  refine ⟨t, ht, ?_, htx, ?_, ?_⟩
  · rw [hty]
    push_cast
    omega
  · intro a b ha
    have hb := b.isLt
    have := hv1 a b (by omega) (by omega) (by omega)
    simpa using this
  · intro a b k ha
    exact hv2 a b k (by omega)

/-- Witness of C8: at cursor (1, 0), writing 80 times 'X' fills row 1 with
('X', 12) and ends at cursor (2, 0). -/
theorem full_row_wraps_once_witness :
    ∃ t, putchars (List.replicate 80 88) ⟨zeroScreen, 0, 1⟩ = some t ∧ t.ypos = 1 + 1 ∧
      t.xpos = 0 ∧
      (∀ (a : Fin 25) (b : Fin 80), (a.val : Int) = 1 →
        ((t.video.get a b 0).val : Int) = (List.replicate 80 88).getD b.val 0 % 256 ∧
        (t.video.get a b 1).val = 12) ∧
      (∀ (a : Fin 25) (b : Fin 80) (k : Fin 2), (a.val : Int) ≠ 1 →
        t.video.get a b k = zeroScreen.get a b k) :=
  full_row_wraps_once ⟨zeroScreen, 0, 1⟩ (List.replicate 80 88) 1 rfl rfl (by decide)
    (by decide) (by simp) (by
      intro c hc
      rw [List.eq_of_mem_replicate hc]
      decide)

theorem putchars_newlines (n : Nat) :
    ∀ s : State, s.xpos = 0 → s.ypos + n < LINES →
      putchars (List.replicate n 10) s = some ⟨s.video, 0, s.ypos + n⟩ := by
  induction n with
  | zero =>
    intro s hx _
    obtain ⟨v, x, y⟩ := s
    simp only [] at hx
    subst hx
    simp [putchars]
  | succ n ih =>
    intro s hx hy
    rw [List.replicate_succ]
    unfold putchars
    rw [putchar_nl, newline_advance s (by push_cast at hy; omega), Option.some_bind,
      ih _ rfl (by simp only []; push_cast at hy ⊢; omega)]
    simp only []
    push_cast
    rw [add_assoc, add_comm 1 (n : Int)]

theorem newline_last_row (s : State) (hy : s.ypos = 24) :
    ∃ t, putchar 10 s = some t ∧ t.ypos = 24 ∧ t.xpos = 0 ∧
      (∀ (a a2 : Fin 25) (b : Fin 80) (k : Fin 2), a2.val = a.val + 1 →
        t.video.get a b k = s.video.get a2 b k) ∧
      (∀ b : Fin 80, (t.video.get 24 b 0).val = 32 ∧ (t.video.get 24 b 1).val = 12) := by
  obtain ⟨t, ht, htx, hty, hv1, hv2⟩ := scroll_spec ⟨s.video, 0, s.ypos + 1⟩
  refine ⟨t, ?_, hty, htx, hv1, ?_⟩
  · rw [putchar_nl, newline_scroll s (by rw [hy]; decide) (by rw [hy]; decide)]
    exact ht
  · intro b
    rw [hv2 24 b 0 rfl, hv2 24 b 1 rfl]
    exact blankByte_val

/-- C9: scroll correctness from a cleared grid.  From any state, `cls()` and then
26 calls of `putchar('\n')` return; with `t25` the state before the last call
and `t26` the final state, the cursor of `t26` is (24, 0), every cell of its row
24 is a space with attribute 12, and its row i is row i+1 of `t25` for every i
from 0 to 23. -/
theorem scroll_after_26_newlines (s : State) :
    ∃ t0 t25 t26, cls s = some t0 ∧ putchars (List.replicate 25 10) t0 = some t25 ∧
      putchar 10 t25 = some t26 ∧ putchars (List.replicate 26 10) t0 = some t26 ∧
      t26.ypos = 24 ∧ t26.xpos = 0 ∧
      (∀ b : Fin 80, (t26.video.get 24 b 0).val = 32 ∧ (t26.video.get 24 b 1).val = 12) ∧
      (∀ (a a2 : Fin 25) (b : Fin 80) (k : Fin 2), a2.val = a.val + 1 →
        t26.video.get a b k = t25.video.get a2 b k) := by
  obtain ⟨t0, h0, hx, hy, _⟩ := cls_spec s
  have h24 := putchars_newlines 24 t0 hx (by rw [hy]; decide)
  obtain ⟨t25, h25, hy25, _, _, _⟩ := newline_last_row ⟨t0.video, 0, t0.ypos + (24 : Nat)⟩
    (by simp only [hy]; rfl)
  obtain ⟨t26, h26, hy26, hx26, hv1, hv2⟩ := newline_last_row t25 hy25
  have e25 : putchars (List.replicate 25 10) t0 = some t25 := by
    rw [List.replicate_succ', putchars_append, h24, Option.some_bind]
    unfold putchars
    rw [h25, Option.some_bind]
    rfl
  refine ⟨t0, t25, t26, h0, e25, h26, ?_, hy26, hx26, hv2, hv1⟩
  rw [List.replicate_succ', putchars_append, e25, Option.some_bind]
  unfold putchars
  rw [h26, Option.some_bind]
  rfl

/-- C10: `cls` is idempotent, and its result does not depend on the state it is
called in: for all states `s` and `s2` there is a state `t` that `cls` returns
from `s`, from `s2`, and from `t` itself. -/
theorem cls_idempotent (s s2 : State) :
    ∃ t, cls s = some t ∧ cls t = some t ∧ cls s2 = some t ∧
      (cls s).bind cls = cls s := by
  have same : ∀ u1 u2 : State, ∃ t, cls u1 = some t ∧ cls u2 = some t := by
    intro u1 u2
    obtain ⟨t1, h1, hx1, hy1, hv1⟩ := cls_spec u1
    obtain ⟨t2, h2, hx2, hy2, hv2⟩ := cls_spec u2
    have e : t2 = t1 := State.ext_get t2 t1 (hx2.trans hx1.symm) (hy2.trans hy1.symm)
      (fun a b c => (hv2 a b c).trans (hv1 a b c).symm)
    exact ⟨t1, h1, e ▸ h2⟩
  obtain ⟨t, h1, h2⟩ := same s s2
  obtain ⟨t3, h3, h4⟩ := same s t
  have e : t3 = t := Option.some.inj (h3.symm.trans h1)
  subst e
  refine ⟨t3, h1, h4, h2, ?_⟩
  rw [h1, Option.some_bind, h4]

/-! ## The cursor after `putchar` -/

theorem newline_cursor (s : State) (h0 : 0 ≤ s.ypos) (h1 : s.ypos < 25) :
    ∃ t, newline s = some t ∧ t.xpos = 0 ∧ t.ypos = min (s.ypos + 1) 24 ∧
      (t.video = s.video ∨ t.video = shiftUp s.video) := by
  by_cases h : s.ypos + 1 < LINES
  · refine ⟨_, newline_advance s h, rfl, ?_, Or.inl rfl⟩
    unfold LINES at h
    simp only []
    omega
  · unfold LINES at h
    obtain ⟨t, ht, hx, hy, _⟩ := scroll_spec ⟨s.video, 0, s.ypos + 1⟩
    refine ⟨t, ?_, hx, ?_, Or.inr (shiftUp_of_scroll ⟨s.video, 0, s.ypos + 1⟩ t ht)⟩
    · rw [newline_scroll s (by unfold LINES; omega) (by unfold INT_MAX; omega)]
      exact ht
    · omega

/-- The result of `putchar` from a state within the bounds, in all cases: an
ordinary character is written at the cursor and, unless the last column was
written, the cursor moves right; otherwise the cursor moves to column 0 of the
next row, or stays in row 24 with the screen shifted. -/
theorem putchar_cases (s : State) (c : Int) (h : InBounds s) :
    ∃ t v1, putchar c s = some t ∧
      ((c ≠ 10 ∧ c ≠ 13) → ∃ a b, (a.val : Int) = s.ypos ∧ (b.val : Int) = s.xpos ∧
        v1 = written s.video a b c) ∧
      (¬ (c ≠ 10 ∧ c ≠ 13) → v1 = s.video) ∧
      ((c ≠ 10 ∧ c ≠ 13) ∧ s.xpos < 79 → t.video = v1 ∧ t.ypos = s.ypos ∧ t.xpos = s.xpos + 1) ∧
      (¬ ((c ≠ 10 ∧ c ≠ 13) ∧ s.xpos < 79) →
        t.xpos = 0 ∧ t.ypos = min (s.ypos + 1) 24 ∧ (t.video = v1 ∨ t.video = shiftUp v1)) := by
  obtain ⟨hy0, hy1, hx0, hx1⟩ := h
  unfold LINES at hy1
  unfold COLUMNS at hx1
  by_cases hc : c ≠ 10 ∧ c ≠ 13
  · have p := putchar_char s c s.ypos.toNat s.xpos.toNat (by omega) (by omega) (by omega)
      (by omega) hc
    by_cases hw : s.xpos.toNat + 1 < 80
    · rw [if_pos hw] at p
      refine ⟨_, written s.video ⟨s.ypos.toNat, by omega⟩ ⟨s.xpos.toNat, by omega⟩ c, p,
        fun _ => ⟨_, _, ?_, ?_, rfl⟩, fun h => absurd hc h, fun _ => ⟨rfl, ?_, ?_⟩, fun h => ?_⟩
      · simp only []; omega
      · simp only []; omega
      · simp only []; omega
      · simp only []; omega
      · exact absurd ⟨hc, by omega⟩ h
    · rw [if_neg hw] at p
      obtain ⟨t, ht, htx, hty, htv⟩ := newline_cursor
        ⟨written s.video ⟨s.ypos.toNat, by omega⟩ ⟨s.xpos.toNat, by omega⟩ c,
          (s.xpos.toNat : Int) + 1, (s.ypos.toNat : Int)⟩ (by simp) (by simp only []; omega)
      refine ⟨t, written s.video ⟨s.ypos.toNat, by omega⟩ ⟨s.xpos.toNat, by omega⟩ c,
        p.trans ht, fun _ => ⟨_, _, ?_, ?_, rfl⟩, fun h => absurd hc h, fun h => ?_,
        fun _ => ⟨htx, ?_, htv⟩⟩
      · simp only []; omega
      · simp only []; omega
      · omega
      · rw [hty]
        simp only []
        omega
  · have e : putchar c s = newline s := by
      by_cases h10 : c = 10
      · subst h10
        exact putchar_nl s
      · have h13 : c = 13 := by
          by_contra h13
          exact hc ⟨h10, h13⟩
        subst h13
        exact putchar_cr s
    obtain ⟨t, ht, htx, hty, htv⟩ := newline_cursor s hy0 hy1
    exact ⟨t, s.video, e.trans ht, fun h => absurd h hc, fun _ => rfl,
      fun h => absurd h.1 hc, fun _ => ⟨htx, hty, htv⟩⟩

theorem putchar_cursor (s : State) (c : Int) (h : InBounds s) :
    ∃ t, putchar c s = some t ∧ InBounds t ∧
      ((c ≠ 10 ∧ c ≠ 13) ∧ s.xpos < 79 → t.ypos = s.ypos ∧ t.xpos = s.xpos + 1) ∧
      (¬ ((c ≠ 10 ∧ c ≠ 13) ∧ s.xpos < 79) → t.xpos = 0 ∧ t.ypos = min (s.ypos + 1) 24) := by
  obtain ⟨t, v1, ht, _, _, h1, h2⟩ := putchar_cases s c h
  obtain ⟨u, hu, hb⟩ := putchar_inBounds s c h
  have e : u = t := Option.some.inj (hu.symm.trans ht)
  subst e
  exact ⟨u, ht, hb, fun hc => (h1 hc).2, fun hc => ⟨(h2 hc).1, (h2 hc).2.1⟩⟩

/-- The cursor after writing characters, none a newline or carriage return, that
fit in the rest of the row: it is behind the last character, or at column 0 of
the next row (row 24 at the bottom) when the last column was written. -/
theorem putchars_cursor (cs : List Int) :
    ∀ s : State, InBounds s → (∀ c ∈ cs, c ≠ 10 ∧ c ≠ 13) → s.xpos + cs.length ≤ 80 →
      ∃ t, putchars cs s = some t ∧ InBounds t ∧
        (s.xpos + cs.length < 80 → t.ypos = s.ypos ∧ t.xpos = s.xpos + cs.length) ∧
        (s.xpos + cs.length = 80 → t.xpos = 0 ∧ t.ypos = min (s.ypos + 1) 24) := by
  induction cs with
  | nil =>
    intro s hb _ _
    refine ⟨s, rfl, hb, fun _ => ⟨rfl, by simp⟩, fun h => ?_⟩
    obtain ⟨_, _, _, hx⟩ := hb
    unfold COLUMNS at hx
    simp only [List.length_nil] at h
    omega
  | cons c rest ih =>
    intro s hb hcs hlen
    simp only [List.length_cons] at hlen ⊢
    push_cast at hlen ⊢
    have hc := hcs c (List.mem_cons_self _ _)
    have hrest : ∀ d ∈ rest, d ≠ 10 ∧ d ≠ 13 := fun d hd => hcs d (List.mem_cons_of_mem _ hd)
    obtain ⟨t, ht, htb, h1, h2⟩ := putchar_cursor s c hb
    have hx0 : 0 ≤ s.xpos := hb.2.2.1
    unfold putchars
    rw [ht, Option.some_bind]
    by_cases hw : s.xpos < 79
    · obtain ⟨hty, htx⟩ := h1 ⟨hc, hw⟩
      obtain ⟨u, hu, hub, g1, g2⟩ := ih t htb hrest (by omega)
      refine ⟨u, hu, hub, fun h => ?_, fun h => ?_⟩
      · have := g1 (by omega)
        omega
      · have := g2 (by omega)
        omega
    · obtain ⟨htx, hty⟩ := h2 (fun h => hw h.2)
      have hr : rest = [] := List.eq_nil_of_length_eq_zero (by omega)
      subst hr
      refine ⟨t, rfl, htb, fun h => ?_, fun _ => ⟨htx, hty⟩⟩
      simp only [List.length_nil] at h
      omega

/-- The cursors of the two sequences compared by C11, from a state within the
bounds with `xpos = 0`. -/
theorem wrap_and_newline_cursors (s : State) (cs : List Int) (x : Int) (hb : InBounds s)
    (hx : s.xpos = 0) (hlen : cs.length = 80) (hcs : ∀ c ∈ cs, c ≠ 10 ∧ c ≠ 13)
    (hxc : x ≠ 10 ∧ x ≠ 13) :
    ∃ tA tB, putchars (cs ++ [x]) s = some tA ∧ putchars (cs ++ [10, x]) s = some tB ∧
      tA.xpos = 1 ∧ tA.ypos = min (s.ypos + 1) 24 ∧
      tB.xpos = 1 ∧ tB.ypos = min (s.ypos + 2) 24 := by
  obtain ⟨t, ht, htb, _, h2⟩ := putchars_cursor cs s hb hcs (by rw [hx, hlen]; decide)
  obtain ⟨htx, hty⟩ := h2 (by rw [hx, hlen]; decide)
  obtain ⟨tA, hA, _, a1, _⟩ := putchar_cursor t x htb
  obtain ⟨hAy, hAx⟩ := a1 ⟨hxc, by omega⟩
  obtain ⟨u, hu, hub, _, b2⟩ := putchar_cursor t 10 htb
  obtain ⟨hux, huy⟩ := b2 (fun h => h.1.1 rfl)
  obtain ⟨tB, hB, _, c1, _⟩ := putchar_cursor u x hub
  obtain ⟨hBy, hBx⟩ := c1 ⟨hxc, by omega⟩
  have hy0 : 0 ≤ s.ypos := hb.1
  refine ⟨tA, tB, ?_, ?_, by omega, by omega, by omega, by omega⟩
  · rw [putchars_append, ht, Option.some_bind]
    unfold putchars
    rw [hA, Option.some_bind]
    rfl
  · rw [putchars_append, ht, Option.some_bind]
    unfold putchars
    rw [hu, Option.some_bind]
    unfold putchars
    rw [hB, Option.some_bind]
    rfl

/-! ## Wrap and explicit newline (C11), first scroll (C12) -/

/-- C11, as amended: from a state with `xpos = 0` and `0 <= ypos = r < 25`, for 80
characters, none a newline or carriage return, and a further such character
`x`, both sequences return and end at column 1.  Writing the 80 characters and
`x` ends in row `min (r + 1) 24`; writing the 80 characters, a newline and `x`
ends in row `min (r + 2) 24`.  So for `r <= 22` the sequence with the explicit
newline ends one row lower, and the two cursors are equal only for `r >= 23`. -/
theorem wrap_versus_newline (s : State) (cs : List Int) (x : Int) (hx : s.xpos = 0)
    (hy0 : 0 ≤ s.ypos) (hy1 : s.ypos < 25) (hlen : cs.length = 80)
    (hcs : ∀ c ∈ cs, c ≠ 10 ∧ c ≠ 13) (hxn : x ≠ 10) (hxr : x ≠ 13) :
    ∃ tA tB, putchars (cs ++ [x]) s = some tA ∧ putchars (cs ++ [10, x]) s = some tB ∧
      tA.xpos = 1 ∧ tB.xpos = 1 ∧
      tA.ypos = min (s.ypos + 1) 24 ∧ tB.ypos = min (s.ypos + 2) 24 ∧
      (s.ypos ≤ 22 → tB.ypos = tA.ypos + 1) ∧ (23 ≤ s.ypos → tB.ypos = tA.ypos) := by
  have hb : InBounds s := by
    unfold InBounds LINES COLUMNS
    omega
  obtain ⟨tA, tB, hA, hB, hAx, hAy, hBx, hBy⟩ :=
    wrap_and_newline_cursors s cs x hb hx hlen hcs ⟨hxn, hxr⟩
  refine ⟨tA, tB, hA, hB, hAx, hBx, hAy, hBy, fun h => ?_, fun h => ?_⟩
  · omega
  · omega

/-- Witness of C11: 80 times 'X' and then 'Y' from the cursor (23, 0), where the
two cursors agree. -/
theorem wrap_versus_newline_witness :
    ∃ tA tB, putchars (List.replicate 80 88 ++ [89]) ⟨zeroScreen, 0, 23⟩ = some tA ∧
      putchars (List.replicate 80 88 ++ [10, 89]) ⟨zeroScreen, 0, 23⟩ = some tB ∧
      tA.xpos = 1 ∧ tB.xpos = 1 ∧
      tA.ypos = min ((23 : Int) + 1) 24 ∧ tB.ypos = min ((23 : Int) + 2) 24 ∧
      ((23 : Int) ≤ 22 → tB.ypos = tA.ypos + 1) ∧ ((23 : Int) ≤ 23 → tB.ypos = tA.ypos) :=
  wrap_versus_newline ⟨zeroScreen, 0, 23⟩ (List.replicate 80 88) 89 rfl (by decide) (by decide)
    (by simp) (by
      intro c hc
      rw [List.eq_of_mem_replicate hc]
      decide) (by decide) (by decide)

/-- Counterexample to C11 as stated: right after `cls()`, writing 80 times 'X'
and then 'Y' ends at cursor (1, 1), but writing 80 times 'X', a newline and
then 'Y' ends at cursor (2, 1). -/
theorem wrap_versus_newline_counterexample :
    ∃ t0 tA tB, cls ⟨zeroScreen, 0, 0⟩ = some t0 ∧
      putchars (List.replicate 80 88 ++ [89]) t0 = some tA ∧
      putchars (List.replicate 80 88 ++ [10, 89]) t0 = some tB ∧
      tA.ypos = 1 ∧ tA.xpos = 1 ∧ tB.ypos = 2 ∧ tB.xpos = 1 ∧
      ¬ (tA.ypos = tB.ypos ∧ tA.xpos = tB.xpos) := by
  obtain ⟨t0, h0, hx, hy, _⟩ := cls_spec ⟨zeroScreen, 0, 0⟩
  have hb : InBounds t0 := by
    unfold InBounds LINES COLUMNS
    omega
  obtain ⟨tA, tB, hA, hB, hAx, hAy, hBx, hBy⟩ :=
    wrap_and_newline_cursors t0 (List.replicate 80 88) 89 hb hx (by simp) (by
      intro c hc
      rw [List.eq_of_mem_replicate hc]
      decide) (by decide)
  rw [hy] at hAy hBy
  have eA : tA.ypos = 1 := by rw [hAy]; decide
  have eB : tB.ypos = 2 := by rw [hBy]; decide
  refine ⟨t0, tA, tB, h0, hA, hB, eA, hAx, eB, hBx, ?_⟩
  intro h
  omega

/-- After `cls()`: up to 24 newlines only move the cursor down, and the next
newline, from row 24, shifts the screen. -/
theorem cls_then_newlines (s : State) :
    ∃ t0 t25, cls s = some t0 ∧ (∀ a b c, t0.video.get a b c = clsByte a b c) ∧
      (∀ k : Fin 25, putchars (List.replicate k.val 10) t0 = some ⟨t0.video, 0, (k.val : Int)⟩) ∧
      putchar 10 ⟨t0.video, 0, 24⟩ = some t25 ∧
      putchars (List.replicate 25 10) t0 = some t25 ∧ t25.ypos = 24 ∧ t25.xpos = 0 ∧
      (∀ (a a2 : Fin 25) (b : Fin 80) (k : Fin 2), a2.val = a.val + 1 →
        t25.video.get a b k = t0.video.get a2 b k) ∧
      (∀ b : Fin 80, (t25.video.get 24 b 0).val = 32 ∧ (t25.video.get 24 b 1).val = 12) := by
  obtain ⟨t0, h0, hx, hy, hv⟩ := cls_spec s
  have hk : ∀ k : Fin 25,
      putchars (List.replicate k.val 10) t0 = some ⟨t0.video, 0, (k.val : Int)⟩ := by
    intro k
    have hlt := k.isLt
    rw [putchars_newlines k.val t0 hx (by rw [hy]; unfold LINES; omega), hy, zero_add]
  obtain ⟨t25, h25, hy25, hx25, hv1, hv2⟩ := newline_last_row ⟨t0.video, 0, 24⟩ rfl
  refine ⟨t0, t25, h0, hv, hk, h25, ?_, hy25, hx25, hv1, hv2⟩
  have h24 : putchars (List.replicate 24 10) t0 = some ⟨t0.video, 0, 24⟩ := hk 24
  rw [List.replicate_succ', putchars_append, h24, Option.some_bind]
  unfold putchars
  rw [h25, Option.some_bind]
  rfl

theorem clsByte_attr (a : Fin 25) (b : Fin 80) :
    (clsByte a b 0).val = 32 ∧ (clsByte a b 1).val = 12 + b.val + a.val := by
  constructor
  · rfl
  · have h := toByte_val (ATTRIBUTE + (b.val : Int) + (a.val : Int))
    have e : clsByte a b 1 = toByte (ATTRIBUTE + (b.val : Int) + (a.val : Int)) := rfl
    have ha := a.isLt
    have hb := b.isLt
    rw [e]
    unfold ATTRIBUTE at h ⊢
    omega

/-- C12, as amended: after `cls()` every number k <= 24 of newlines leaves the
grid exactly as `cls()` produced it, with the cursor at (k, 0); so after R-1 = 24
newlines the cursor is (24, 0) and no scroll has occurred.  The R-th (25th)
newline is the first that scrolls: old row i becomes row i-1 (row 0 is
discarded), the last row is blank, the cursor stays at (24, 0), and the grid is
no longer the grid of `cls()`. -/
theorem first_scroll_on_25th_newline (s : State) :
    ∃ t0 t25, cls s = some t0 ∧
      (∀ k : Fin 25, putchars (List.replicate k.val 10) t0 = some ⟨t0.video, 0, (k.val : Int)⟩) ∧
      putchars (List.replicate 25 10) t0 = some t25 ∧ t25.ypos = 24 ∧ t25.xpos = 0 ∧
      (∀ (a a2 : Fin 25) (b : Fin 80) (k : Fin 2), a2.val = a.val + 1 →
        t25.video.get a b k = t0.video.get a2 b k) ∧
      (∀ b : Fin 80, (t25.video.get 24 b 0).val = 32 ∧ (t25.video.get 24 b 1).val = 12) ∧
      t25.video = shiftUp t0.video ∧ t25.video ≠ t0.video := by
  obtain ⟨t0, t25, h0, hv, hk, hnl, h25, hy, hx, hv1, hv2⟩ := cls_then_newlines s
  refine ⟨t0, t25, h0, hk, h25, hy, hx, hv1, hv2, ?_, ?_⟩
  · obtain ⟨u, hu, _, _, hor⟩ := newline_cursor ⟨t0.video, 0, 24⟩ (by simp) (by simp)
    rw [putchar_nl, hu] at hnl
    have e : u = t25 := Option.some.inj hnl
    subst e
    rcases hor with h | h
    · exfalso
      have h1 := (hv2 0).2
      rw [h] at h1
      simp only [] at h1
      rw [hv 24 0 1] at h1
      exact absurd h1 (by decide)
    · exact h
  · intro e
    have h1 := (hv2 0).2
    rw [e, hv 24 0 1] at h1
    exact absurd h1 (by decide)

/-- Counterexample to C12 as stated: after `cls()` and R = 25 newlines the grid
is not the grid of `cls()`: the attribute of cell (24, 0) was 36 and is 12,
because the 25th newline has scrolled. -/
theorem first_scroll_counterexample :
    ∃ t0 t25, cls ⟨zeroScreen, 0, 0⟩ = some t0 ∧
      putchars (List.replicate 25 10) t0 = some t25 ∧
      (t0.video.get 24 0 1).val = 36 ∧ (t25.video.get 24 0 1).val = 12 ∧
      t25.video ≠ t0.video := by
  obtain ⟨t0, t25, h0, hv, _, _, h25, _, _, _, hv2⟩ := cls_then_newlines ⟨zeroScreen, 0, 0⟩
  have h36 : (t0.video.get 24 0 1).val = 36 := by
    rw [hv 24 0 1]
    rfl
  refine ⟨t0, t25, h0, h25, h36, (hv2 0).2, ?_⟩
  intro e
  have h1 := (hv2 0).2
  rw [e, h36] at h1
  exact absurd h1 (by decide)

/-! ## Properties of the screen kept by every driver call -/

theorem putchar_preserves (P : Screen → Prop)
    (hw : ∀ v a b c, P v → P (written v a b c)) (hs : ∀ v, P v → P (shiftUp v))
    (s : State) (c : Int) (hb : InBounds s) (hp : P s.video) :
    ∃ t, putchar c s = some t ∧ InBounds t ∧ P t.video := by
  obtain ⟨t, v1, ht, h1, h2, h3, h4⟩ := putchar_cases s c hb
  obtain ⟨u, hu, hub⟩ := putchar_inBounds s c hb
  have e : u = t := Option.some.inj (hu.symm.trans ht)
  subst e
  refine ⟨u, ht, hub, ?_⟩
  have hv1 : P v1 := by
    by_cases hc : c ≠ 10 ∧ c ≠ 13
    · obtain ⟨a, b, _, _, e⟩ := h1 hc
      rw [e]
      exact hw _ a b c hp
    · rw [h2 hc]
      exact hp
  by_cases hx : (c ≠ 10 ∧ c ≠ 13) ∧ s.xpos < 79
  · rw [(h3 hx).1]
    exact hv1
  · rcases (h4 hx).2.2 with e | e
    · rw [e]
      exact hv1
    · rw [e]
      exact hs v1 hv1

theorem puts_preserves (P : Screen → Prop)
    (hw : ∀ v a b c, P v → P (written v a b c)) (hs : ∀ v, P v → P (shiftUp v))
    (msg : List Int) :
    ∀ s, InBounds s → P s.video → 0 ∈ msg → ∃ t, puts msg s = some t ∧ InBounds t ∧ P t.video := by
  induction msg with
  | nil => intro s _ _ h; simp at h
  | cons c rest ih =>
    intro s hb hp hm
    unfold puts
    by_cases hc : c ≠ 0
    · rw [if_pos hc]
      obtain ⟨t, ht, htb, htp⟩ := putchar_preserves P hw hs s c hb hp
      rw [ht, Option.some_bind]
      have hr : 0 ∈ rest := by
        rcases List.mem_cons.1 hm with h | h
        · exact absurd h.symm hc
        · exact h
      exact ih t htb htp hr
    · rw [if_neg hc]
      exact ⟨s, rfl, hb, hp⟩

theorem run_preserves (P : Screen → Prop)
    (hw : ∀ v a b c, P v → P (written v a b c)) (hs : ∀ v, P v → P (shiftUp v))
    (hcls : ∀ s t, cls s = some t → P t.video) (calls : List Call) :
    ∀ s, InBounds s → P s.video → (∀ k ∈ calls, k.Terminated) →
      ∃ t, run calls s = some t ∧ InBounds t ∧ P t.video := by
  induction calls with
  | nil => intro s hb hp _; exact ⟨s, rfl, hb, hp⟩
  | cons k rest ih =>
    intro s hb hp hk
    have step : ∃ t, k.exec s = some t ∧ InBounds t ∧ P t.video := by
      cases k with
      | cls =>
        obtain ⟨t, ht, htb⟩ := cls_inBounds s
        exact ⟨t, ht, htb, hcls s t ht⟩
      | putchar c => exact putchar_preserves P hw hs s c hb hp
      | puts msg => exact puts_preserves P hw hs msg s hb hp (hk _ (List.mem_cons_self _ _))
    obtain ⟨t, ht, htb, htp⟩ := step
    obtain ⟨u, hu, hub, hup⟩ := ih t htb htp (fun k2 h2 => hk k2 (List.mem_cons_of_mem _ h2))
    refine ⟨u, ?_, hub, hup⟩
    unfold run
    rw [ht, Option.some_bind]
    exact hu

theorem attrInv_written (v : Screen) (a : Fin 25) (b : Fin 80) (c : Int) (h : AttrInv v) :
    AttrInv (written v a b c) := by
  intro a2 b2
  rw [written_get, written_get]
  by_cases hab : a2 = a ∧ b2 = b
  · rw [if_pos hab, if_pos hab]
    intro hne
    exact absurd rfl hne
  · rw [if_neg hab, if_neg hab]
    exact h a2 b2

theorem attrInv_shiftUp (v : Screen) (h : AttrInv v) : AttrInv (shiftUp v) := by
  intro a b
  unfold shiftUp
  rw [Screen.get_ofFn, Screen.get_ofFn]
  by_cases ha : a.val + 1 < 25
  · rw [dif_pos ha, dif_pos ha]
    intro hne
    obtain ⟨h1, r, hr1, hr2, hr3⟩ := h ⟨a.val + 1, ha⟩ b hne
    exact ⟨h1, r, by simp only [] at hr1; omega, hr2, hr3⟩
  · rw [dif_neg ha, dif_neg ha]
    intro hne
    exact absurd blankByte_val.2 hne

theorem attrInv_cls (s t : State) (h : cls s = some t) : AttrInv t.video := by
  obtain ⟨u, hu, _, _, hv⟩ := cls_spec s
  have e : u = t := Option.some.inj (hu.symm.trans h)
  subst e
  intro a b _
  rw [hv a b 0, hv a b 1]
  exact ⟨(clsByte_attr a b).1, a.val, le_refl _, by have := a.isLt; omega, (clsByte_attr a b).2⟩

/-- From `cls()`, every sequence of driver calls on zero-terminated strings
returns a state within the bounds whose screen satisfies `AttrInv`. -/
theorem reachable_attrInv (s : State) (calls : List Call) (hk : ∀ k ∈ calls, k.Terminated) :
    ∃ t0 t, cls s = some t0 ∧ run calls t0 = some t ∧ InBounds t ∧ AttrInv t.video := by
  obtain ⟨t0, h0, hb0⟩ := cls_inBounds s
  obtain ⟨t, ht, htb, hinv⟩ := run_preserves AttrInv attrInv_written attrInv_shiftUp attrInv_cls
    calls t0 hb0 (attrInv_cls s t0 h0) hk
  exact ⟨t0, t, h0, ht, htb, hinv⟩

/-! ## Invariant I2 (C13) -/

theorem run_putchars (cs : List Int) :
    ∀ s, run (cs.map Call.putchar) s = putchars cs s := by
  induction cs with
  | nil => intro s; rfl
  | cons c rest ih =>
    intro s
    show (putchar c s).bind (fun t => run (rest.map Call.putchar) t)
      = (putchar c s).bind (fun t => putchars rest t)
    cases putchar c s with
    | none => rfl
    | some t => exact ih t

theorem i2Below_of_attrInv (s : State) (h : AttrInv s.video) : I2Below s := by
  intro a b
  by_cases h12 : (s.video.get a b 1).val = 12
  · exact Or.inr h12
  · obtain ⟨h1, r, hr1, hr2, hr3⟩ := h a b h12
    refine Or.inl ⟨h1, r, hr1, hr2, ?_⟩
    have hb := b.isLt
    omega

/-- C13, as amended: right after `cls()` every cell (i, j) holds a space with the
gradient attribute of its own position, `(12 + j + i) mod 256`; and in every
state reached from `cls()` by a sequence of driver calls (on zero-terminated
strings) every cell (i, j) holds either a space with the gradient attribute
`(12 + j + r) mod 256` of a position (r, j) of the same column with
`i <= r <= 24`, or a cell with the base attribute 12. -/
theorem cell_invariant_with_scrolling (s : State) (calls : List Call)
    (hk : ∀ k ∈ calls, k.Terminated) :
    ∃ t0 t, cls s = some t0 ∧
      (∀ (a : Fin 25) (b : Fin 80),
        (t0.video.get a b 0).val = 32 ∧
        (t0.video.get a b 1).val = (12 + b.val + a.val) % 256) ∧
      run calls t0 = some t ∧ I2Below t := by
  obtain ⟨t0, t, h0, ht, _, hinv⟩ := reachable_attrInv s calls hk
  refine ⟨t0, t, h0, ?_, ht, i2Below_of_attrInv t hinv⟩
  obtain ⟨u, hu, _, _, hv⟩ := cls_spec s
  have e : u = t0 := Option.some.inj (hu.symm.trans h0)
  subst e
  intro a b
  rw [hv a b 0, hv a b 1, (clsByte_attr a b).1, (clsByte_attr a b).2]
  have ha := a.isLt
  have hb := b.isLt
  exact ⟨rfl, by omega⟩

/-- Witness of C13: after `cls()`, the call `puts("AB\n")` and then 25 newlines,
the last two of which scroll the screen. -/
theorem cell_invariant_with_scrolling_witness :
    ∃ t0 t, cls ⟨zeroScreen, 0, 0⟩ = some t0 ∧
      (∀ (a : Fin 25) (b : Fin 80),
        (t0.video.get a b 0).val = 32 ∧
        (t0.video.get a b 1).val = (12 + b.val + a.val) % 256) ∧
      run (Call.puts [65, 66, 10, 0] :: List.replicate 25 (Call.putchar 10)) t0 = some t ∧
      I2Below t :=
  cell_invariant_with_scrolling ⟨zeroScreen, 0, 0⟩
    (Call.puts [65, 66, 10, 0] :: List.replicate 25 (Call.putchar 10)) (by
      intro k hk
      rcases List.mem_cons.1 hk with h | h
      · rw [h]
        show (0 : Int) ∈ [65, 66, 10, 0]
        decide
      · rw [List.eq_of_mem_replicate h]
        trivial)

/-- Counterexample to C13 as stated: after `cls()` and 25 calls of
`putchar('\n')` the cell (0, 0) holds a space with attribute 13, which is
neither the gradient attribute 12 + 0 + 0 of its position with a space nor, being
13, the base attribute: I2 fails. -/
theorem cell_invariant_counterexample :
    ∃ t0 t, cls ⟨zeroScreen, 0, 0⟩ = some t0 ∧
      run (List.replicate 25 (Call.putchar 10)) t0 = some t ∧
      (t.video.get 0 0 0).val = 32 ∧ (t.video.get 0 0 1).val = 13 ∧ ¬ I2 t := by
  obtain ⟨t0, t25, h0, hv, _, _, h25, _, _, hv1, _⟩ := cls_then_newlines ⟨zeroScreen, 0, 0⟩
  have hch : (t25.video.get 0 0 0).val = 32 := by
    rw [hv1 0 1 0 0 rfl, hv 1 0 0]
    rfl
  have hat : (t25.video.get 0 0 1).val = 13 := by
    rw [hv1 0 1 0 1 rfl, hv 1 0 1]
    rfl
  refine ⟨t0, t25, h0, ?_, hch, hat, ?_⟩
  · rw [← List.map_replicate, run_putchars]
    exact h25
  · intro hI
    rcases hI 0 0 with h | h
    · rw [hat] at h
      exact absurd h.2 (by decide)
    · rw [hat] at h
      exact absurd h (by decide)

/-! ## The cursor is reset only by `cls` (C14) -/

theorem putchar_progress (s : State) (c : Int) (h : InBounds s) :
    ∃ t, putchar c s = some t ∧ InBounds t ∧ ¬ (t.ypos = 0 ∧ t.xpos = 0) ∧ s.ypos ≤ t.ypos := by
  obtain ⟨t, ht, htb, h1, h2⟩ := putchar_cursor s c h
  obtain ⟨hy0, hy1, hx0, hx1⟩ := h
  unfold LINES at hy1
  refine ⟨t, ht, htb, ?_, ?_⟩
  · by_cases hc : (c ≠ 10 ∧ c ≠ 13) ∧ s.xpos < 79
    · have := h1 hc
      omega
    · have := h2 hc
      omega
  · by_cases hc : (c ≠ 10 ∧ c ≠ 13) ∧ s.xpos < 79
    · have := h1 hc
      omega
    · have := h2 hc
      omega

theorem putchars_progress (cs : List Int) :
    ∀ s, InBounds s → ∃ t, putchars cs s = some t ∧ InBounds t ∧ s.ypos ≤ t.ypos ∧
      (cs ≠ [] → ¬ (t.ypos = 0 ∧ t.xpos = 0)) := by
  induction cs with
  | nil => intro s hb; exact ⟨s, rfl, hb, le_refl _, fun h => absurd rfl h⟩
  | cons c rest ih =>
    intro s hb
    obtain ⟨t, ht, htb, hne, hle⟩ := putchar_progress s c hb
    obtain ⟨u, hu, hub, hle2, hne2⟩ := ih t htb
    unfold putchars
    rw [ht, Option.some_bind]
    refine ⟨u, hu, hub, le_trans hle hle2, fun _ => ?_⟩
    by_cases hr : rest = []
    · subst hr
      have e : u = t := (Option.some.inj hu).symm
      rw [e]
      exact hne
    · exact hne2 hr

/-- C14: the cursor is reset to (0, 0) only by `cls`.  From a state within the
bounds, `putchar c` returns a state whose cursor is not (0, 0) and whose row is
not smaller than before, for every character; `puts` on a zero-terminated
string returns a state whose row is not smaller than before and, when the
string has at least one character, whose cursor is not (0, 0); `cls` returns a
state with cursor (0, 0). -/
theorem cursor_reset_only_by_cls (s : State) (c : Int) (msg : List Int) (hb : InBounds s) :
    (∃ t, putchar c s = some t ∧ ¬ (t.ypos = 0 ∧ t.xpos = 0) ∧ s.ypos ≤ t.ypos) ∧
    (0 ∈ msg → ∃ t, puts msg s = some t ∧ s.ypos ≤ t.ypos ∧
      (∀ c0 rest, msg = c0 :: rest → c0 ≠ 0 → ¬ (t.ypos = 0 ∧ t.xpos = 0))) ∧
    (∃ t, cls s = some t ∧ t.ypos = 0 ∧ t.xpos = 0) := by
  refine ⟨?_, ?_, ?_⟩
  · obtain ⟨t, ht, _, hne, hle⟩ := putchar_progress s c hb
    exact ⟨t, ht, hne, hle⟩
  · intro hm
    obtain ⟨t, ht, _, hle, hne⟩ := putchars_progress (msg.takeWhile (fun c => c ≠ 0)) s hb
    refine ⟨t, ?_, hle, ?_⟩
    · rw [puts_eq_putsSpec msg s hm]
      exact ht
    · intro c0 rest e hc0
      apply hne
      rw [e, List.takeWhile_cons_of_pos (by simpa using hc0)]
      exact List.cons_ne_nil _ _
  · obtain ⟨t, ht, hx, hy, _⟩ := cls_spec s
    exact ⟨t, ht, hy, hx⟩

/-- Witness of C14: `putchar('X')` and `puts("AB\n")` in the bottom-right corner. -/
theorem cursor_reset_only_by_cls_witness :
    InBounds ⟨zeroScreen, 79, 24⟩ ∧
    ∃ t, putchar 88 ⟨zeroScreen, 79, 24⟩ = some t ∧ ¬ (t.ypos = 0 ∧ t.xpos = 0) ∧
      (⟨zeroScreen, 79, 24⟩ : State).ypos ≤ t.ypos :=
  ⟨by decide, (cursor_reset_only_by_cls ⟨zeroScreen, 79, 24⟩ 88 [65, 66, 10, 0] (by decide)).1⟩

/-! ## Wrap in the bottom-right corner (C16) -/

/-- C16: wrap in the bottom-right corner.  From a state with cursor (24, 79), for
a character `c` other than newline and carriage return, `putchar c` returns;
cell (23, 79) holds the byte `c mod 256` with attribute 12; every other cell
of rows 0..23 holds what the cell below it held; every cell of row 24 is a
space with attribute 12; the cursor is (24, 0); and the screen is the shift of
the old screen with `c` written at (24, 79). -/
theorem bottom_right_wrap (s : State) (c : Int) (hy : s.ypos = 24) (hx : s.xpos = 79)
    (hn : c ≠ 10) (hr : c ≠ 13) :
    ∃ t, putchar c s = some t ∧
      ((t.video.get 23 79 0).val : Int) = c % 256 ∧ (t.video.get 23 79 1).val = 12 ∧
      (∀ (a a2 : Fin 25) (b : Fin 80) (k : Fin 2), a2.val = a.val + 1 →
        ¬ (a2.val = 24 ∧ b.val = 79) → t.video.get a b k = s.video.get a2 b k) ∧
      (∀ b : Fin 80, (t.video.get 24 b 0).val = 32 ∧ (t.video.get 24 b 1).val = 12) ∧
      t.ypos = 24 ∧ t.xpos = 0 ∧ t.video = shiftUp (written s.video 24 79 c) := by
  have p := putchar_char s c 24 79 (by decide) (by decide) (by rw [hy]; rfl) (by rw [hx]; rfl)
    ⟨hn, hr⟩
  rw [if_neg (by decide)] at p
  have e := newline_scroll ⟨written s.video 24 79 c, ((79 : Nat) : Int) + 1, ((24 : Nat) : Int)⟩
    (by show (25 : Int) ≤ ((24 : Nat) : Int) + 1; decide)
    (by show ((24 : Nat) : Int) + 1 ≤ 2147483647; decide)
  obtain ⟨t, ht, htx, hty, hv1, hv2⟩ :=
    scroll_spec ⟨written s.video 24 79 c, 0, ((24 : Nat) : Int) + 1⟩
  simp only [] at hv1 htx
  have hput : putchar c s = some t := p.trans (e.trans ht)
  refine ⟨t, hput, ?_, ?_, ?_, ?_, hty, htx, ?_⟩
  · rw [hv1 23 24 79 0 rfl, written_get, if_pos ⟨rfl, rfl⟩, if_pos rfl]
    exact toByte_val c
  · rw [hv1 23 24 79 1 rfl, written_get, if_pos ⟨rfl, rfl⟩]
    rfl
  · intro a a2 b k h1 h2
    rw [hv1 a a2 b k h1, written_get, if_neg]
    intro h
    apply h2
    rw [h.1, h.2]
    exact ⟨rfl, rfl⟩
  · intro b
    rw [hv2 24 b 0 rfl, hv2 24 b 1 rfl]
    exact blankByte_val
  · exact shiftUp_of_scroll ⟨written s.video 24 79 c, 0, ((24 : Nat) : Int) + 1⟩ t ht

/-- Witness of C16: the character 'X' written at the cursor (24, 79). -/
theorem bottom_right_wrap_witness :
    ∃ t, putchar 88 ⟨zeroScreen, 79, 24⟩ = some t ∧
      ((t.video.get 23 79 0).val : Int) = 88 % 256 ∧ (t.video.get 23 79 1).val = 12 ∧
      (∀ (a a2 : Fin 25) (b : Fin 80) (k : Fin 2), a2.val = a.val + 1 →
        ¬ (a2.val = 24 ∧ b.val = 79) → t.video.get a b k = zeroScreen.get a2 b k) ∧
      (∀ b : Fin 80, (t.video.get 24 b 0).val = 32 ∧ (t.video.get 24 b 1).val = 12) ∧
      t.ypos = 24 ∧ t.xpos = 0 ∧ t.video = shiftUp (written zeroScreen 24 79 88) :=
  bottom_right_wrap ⟨zeroScreen, 79, 24⟩ 88 rfl rfl (by decide) (by decide)

/-! ## Grid accesses are in bounds (C15) -/

theorem store_isSome_iff (s : State) (i j : Int) (k : Fin 2) (x : Int) :
    (store s i j k x).isSome ↔ (0 ≤ i ∧ i < 25 ∧ 0 ≤ j ∧ j < 80) := by
  unfold store
  by_cases h : 0 ≤ i ∧ i < LINES ∧ 0 ≤ j ∧ j < COLUMNS
  · rw [dif_pos h]
    exact ⟨fun _ => h, fun _ => rfl⟩
  · rw [dif_neg h]
    exact ⟨fun h2 => absurd h2 (by simp), fun h2 => absurd h2 h⟩

theorem load_isSome_iff (s : State) (i j : Int) (k : Fin 2) :
    (load s i j k).isSome ↔ (0 ≤ i ∧ i < 25 ∧ 0 ≤ j ∧ j < 80) := by
  unfold load
  by_cases h : 0 ≤ i ∧ i < LINES ∧ 0 ≤ j ∧ j < COLUMNS
  · rw [dif_pos h]
    exact ⟨fun _ => h, fun _ => rfl⟩
  · rw [dif_neg h]
    exact ⟨fun h2 => absurd h2 (by simp), fun h2 => absurd h2 h⟩

theorem putchar_none_of_out (s : State) (c : Int) (hc : c ≠ 10 ∧ c ≠ 13) (h : ¬ InBounds s) :
    putchar c s = none := by
  unfold putchar
  rw [if_pos hc]
  have e : store s s.ypos s.xpos 0 (Int.land c 0xFF) = none := by
    have h2 : ¬ (0 ≤ s.ypos ∧ s.ypos < LINES ∧ 0 ≤ s.xpos ∧ s.xpos < COLUMNS) := h
    unfold store
    rw [dif_neg h2]
  rw [e]
  rfl

/-- C15: all grid accesses are in bounds.  Every access to the video memory goes
through `store` or `load`, which succeed exactly on indices with
`0 <= row < 25` and `0 <= column < 80` and make the whole call fail otherwise.
From a state within the cursor bounds `putchar c` succeeds for every character,
and `cls` succeeds from every state, so none of their accesses is outside the
grid.  The accesses of the loop bodies are in bounds for all counter values the
loops reach: the cell of `cls`, the read of row i+1 and the write of row i for
`0 <= i < 24` in the scroll, and the blank fill of row `ypos = 24`.  Outside
the cursor bounds the write of an ordinary character fails. -/
theorem grid_accesses_in_bounds (s : State) (c : Int) (i j : Int) (k : Fin 2) (x : Int) :
    ((store s i j k x).isSome ↔ (0 ≤ i ∧ i < 25 ∧ 0 ≤ j ∧ j < 80)) ∧
    ((load s i j k).isSome ↔ (0 ≤ i ∧ i < 25 ∧ 0 ≤ j ∧ j < 80)) ∧
    (InBounds s → (putchar c s).isSome) ∧
    (cls s).isSome ∧
    (InBounds s → (store s s.ypos s.xpos 0 x).isSome ∧ (store s s.ypos s.xpos 1 x).isSome) ∧
    (0 ≤ i → i < LINES → 0 ≤ j → j < COLUMNS → (clsCell i j s).isSome) ∧
    (0 ≤ i → i < LINES - 1 → 0 ≤ j → j < COLUMNS →
      (load s (i + 1) j k).isSome ∧ (store s i j k x).isSome ∧ (copyCell i j s).isSome) ∧
    (s.ypos = LINES - 1 → 0 ≤ j → j < COLUMNS → (blankCell j s).isSome) ∧
    (c ≠ 10 → c ≠ 13 → ¬ InBounds s → putchar c s = none) := by
  refine ⟨store_isSome_iff s i j k x, load_isSome_iff s i j k, ?_, ?_, ?_, ?_, ?_, ?_, ?_⟩
  · intro hb
    obtain ⟨t, ht, _⟩ := putchar_inBounds s c hb
    rw [ht]
    rfl
  · obtain ⟨t, ht, _⟩ := cls_spec s
    rw [ht]
    rfl
  · intro hb
    unfold InBounds LINES COLUMNS at hb
    exact ⟨(store_isSome_iff s _ _ 0 x).2 hb, (store_isSome_iff s _ _ 1 x).2 hb⟩
  · intro h1 h2 h3 h4
    unfold LINES at h2
    unfold COLUMNS at h4
    lift i to ℕ using h1
    lift j to ℕ using h3
    rw [clsCell_nat s i j (by omega) (by omega)]
    rfl
  · intro h1 h2 h3 h4
    unfold LINES at h2
    unfold COLUMNS at h4
    refine ⟨(load_isSome_iff s _ _ k).2 (by omega), (store_isSome_iff s _ _ k x).2 (by omega), ?_⟩
    lift i to ℕ using h1
    lift j to ℕ using h3
    rw [copyCell_nat s i j (by omega) (by omega)]
    rfl
  · intro h1 h3 h4
    unfold COLUMNS at h4
    lift j to ℕ using h3
    rw [blankCell_nat s j (by omega) h1]
    rfl
  · intro h10 h13 hb
    exact putchar_none_of_out s c ⟨h10, h13⟩ hb

/-- Witness of C15: `putchar('X')` in the bottom-right corner, where it wraps and
scrolls. -/
theorem grid_accesses_in_bounds_witness :
    InBounds ⟨zeroScreen, 79, 24⟩ ∧ (putchar 88 ⟨zeroScreen, 79, 24⟩).isSome :=
  ⟨by decide, (grid_accesses_in_bounds ⟨zeroScreen, 79, 24⟩ 88 0 0 0 0).2.2.1 (by decide)⟩

/-! ## Attributes (C17, C18) -/

/-- C17: the attribute invariant that survives scrolling.  In every state
reached from `cls()` by a sequence of driver calls (on zero-terminated
strings), every cell (i, j) whose attribute is not 12 holds a space and has
the attribute `12 + j + r` for a row r with `i <= r <= 24`; so every attribute
of the grid lies between 12 and 115, and every cell that does not hold a space
has attribute 12. -/
theorem attribute_invariant (s : State) (calls : List Call) (hk : ∀ k ∈ calls, k.Terminated) :
    ∃ t0 t, cls s = some t0 ∧ run calls t0 = some t ∧
      (∀ (a : Fin 25) (b : Fin 80), (t.video.get a b 1).val ≠ 12 →
        (t.video.get a b 0).val = 32 ∧
        ∃ r : Nat, a.val ≤ r ∧ r ≤ 24 ∧ (t.video.get a b 1).val = 12 + b.val + r) ∧
      (∀ (a : Fin 25) (b : Fin 80),
        12 ≤ (t.video.get a b 1).val ∧ (t.video.get a b 1).val ≤ 115) ∧
      (∀ (a : Fin 25) (b : Fin 80), (t.video.get a b 0).val ≠ 32 →
        (t.video.get a b 1).val = 12) := by
  obtain ⟨t0, t, h0, ht, _, hinv⟩ := reachable_attrInv s calls hk
  refine ⟨t0, t, h0, ht, hinv, ?_, ?_⟩
  · intro a b
    by_cases h12 : (t.video.get a b 1).val = 12
    · omega
    · obtain ⟨_, r, _, hr2, hr3⟩ := hinv a b h12
      have hb := b.isLt
      omega
  · intro a b hne
    by_contra h12
    exact hne (hinv a b h12).1

/-- Witness of C17: after `cls()`, 25 newlines (the last one scrolls) and
`puts("AB\n")`. -/
theorem attribute_invariant_witness :
    ∃ t0 t, cls ⟨zeroScreen, 3, 4⟩ = some t0 ∧
      run (List.replicate 25 (Call.putchar 10) ++ [Call.puts [65, 66, 10, 0]]) t0 = some t ∧
      (∀ (a : Fin 25) (b : Fin 80), (t.video.get a b 1).val ≠ 12 →
        (t.video.get a b 0).val = 32 ∧
        ∃ r : Nat, a.val ≤ r ∧ r ≤ 24 ∧ (t.video.get a b 1).val = 12 + b.val + r) ∧
      (∀ (a : Fin 25) (b : Fin 80),
        12 ≤ (t.video.get a b 1).val ∧ (t.video.get a b 1).val ≤ 115) ∧
      (∀ (a : Fin 25) (b : Fin 80), (t.video.get a b 0).val ≠ 32 →
        (t.video.get a b 1).val = 12) :=
  attribute_invariant ⟨zeroScreen, 3, 4⟩
    (List.replicate 25 (Call.putchar 10) ++ [Call.puts [65, 66, 10, 0]]) (by
      intro k hk
      rcases List.mem_append.1 hk with h | h
      · rw [List.eq_of_mem_replicate h]
        trivial
      · rw [List.mem_singleton.1 h]
        show (0 : Int) ∈ [65, 66, 10, 0]
        decide)

/-- C18: the gradient attribute computed by `cls` never wraps.  For every cell
(i, j) the value `ATTRIBUTE + j + i` is at most 115, the attribute byte stored
by `cls` is exactly `12 + j + i`, and two cells get the same attribute byte if
and only if `i + j` is the same for both. -/
theorem gradient_never_wraps (s : State) :
    ∃ t, cls s = some t ∧
      ∀ (a : Fin 25) (b : Fin 80),
        ATTRIBUTE + (b.val : Int) + (a.val : Int) ≤ 115 ∧
        ((t.video.get a b 1).val : Int) = ATTRIBUTE + (b.val : Int) + (a.val : Int) ∧
        (t.video.get a b 1).val = 12 + b.val + a.val ∧
        ∀ (a2 : Fin 25) (b2 : Fin 80),
          (t.video.get a b 1 = t.video.get a2 b2 1 ↔ a.val + b.val = a2.val + b2.val) := by
  obtain ⟨t, ht, _, _, hv⟩ := cls_spec s
  refine ⟨t, ht, ?_⟩
  intro a b
  have ha := a.isLt
  have hb := b.isLt
  have h1 := (clsByte_attr a b).2
  refine ⟨by unfold ATTRIBUTE; omega, ?_, ?_, ?_⟩
  · rw [hv a b 1, h1]
    unfold ATTRIBUTE
    push_cast
    rfl
  · rw [hv a b 1, h1]
  · intro a2 b2
    have h2 := (clsByte_attr a2 b2).2
    rw [hv a b 1, hv a2 b2 1, Fin.ext_iff, h1, h2]
    omega

end Hello
